import Mathlib

/-!
Verification of the `ko` resolution pipeline against its specification.

The development shallowly embeds the Go sources:
  * `pkg/resolve/resolve.go` (`ImageReferences`, `refsFromDoc`), together
    with the go-yit iterator combinators it uses
    (`FromNode(..).RecurseNodes().Filter(..)`), and
  * `pkg/commands/resolver.go` (`resolveFile`, `resolveFilesToWriter`,
    and the dep-notify watch callback installed by `graph.New`).

YAML documents are embedded as a tree of nodes mirroring `yaml.Node`
(kind, tag, value, content); node identity ("node handles", i.e. the
`*yaml.Node` pointers the walker yields) is embedded as the access path
from the document root, and in-place mutation of `node.Value` as a
functional update at that path.  The external `build.Interface` and
`publish.Interface` collaborators are function records, and the call
sequence the code performs against them is made explicit as a trace so
that de-duplication claims ("Build is invoked exactly once") can be
stated.  Go's `errgroup` parallel phase is embedded by running every
task and returning the first error in task order.
-/

namespace Ko

/-- Access path from a document root to a node: the sequence of indices
into the `content` arrays of `yaml.Node`. -/
abbrev Path := List Nat

/-- The `yaml.Kind` enumeration of gopkg.in/yaml.v3. -/
inductive YKind where
  | document
  | sequence
  | mapping
  | scalar
  | aliasNode
  deriving DecidableEq, Repr

/-- Embedding of `yaml.Node`: kind, short tag, scalar value, and the
list of child nodes (`Content`). -/
inductive YNode where
  | mk (kind : YKind) (tag : String) (value : String) (content : List YNode)

/-- The `Kind` field of a node. -/
def YNode.kind : YNode → YKind
  | .mk k _ _ _ => k

/-- The `Tag` field of a node. -/
def YNode.tag : YNode → String
  | .mk _ t _ _ => t

/-- The `Value` field of a node. -/
def YNode.value : YNode → String
  | .mk _ _ v _ => v

/-- The `Content` field of a node. -/
def YNode.content : YNode → List YNode
  | .mk _ _ _ c => c

/-! ### Go string helpers

Embeddings of `strings.TrimSpace`, `strings.HasPrefix` and
`strings.TrimPrefix`, at the character-list level. -/

/-- Whitespace test used by `strings.TrimSpace` (ASCII/Unicode space). -/
def isSpc (c : Char) : Bool := c.isWhitespace

/-- Embedding of Go `strings.TrimSpace`: drop leading and trailing
whitespace characters. -/
def trimSpace (s : String) : String :=
  ⟨((s.data.dropWhile isSpc).reverse.dropWhile isSpc).reverse⟩

/-- Embedding of Go `strings.HasPrefix`. -/
def hasPfx (s pfx : String) : Bool := pfx.data.isPrefixOf s.data

/-- Embedding of Go `strings.TrimPrefix`: strip `pfx` when present,
otherwise return the string unchanged. -/
def trimPfx (s pfx : String) : String :=
  if hasPfx s pfx then ⟨s.data.drop pfx.data.length⟩ else s

/-- The `koPrefix` constant of `pkg/resolve/resolve.go`. -/
def koPfx : String := "ko://"

/-! ### Node access and in-place value mutation -/

/-- Node lookup along a path (`none` when the path leaves the tree). -/
def nodeAt : YNode → Path → Option YNode
  | n, [] => some n
  | .mk _ _ _ cs, i :: p =>
    match cs[i]? with
    | some c => nodeAt c p
    | none => none

/-- The scalar `Value` stored at a path. -/
def valueAt (n : YNode) (p : Path) : Option String :=
  (nodeAt n p).map YNode.value

/-- Apply `f` to the element at index `i`, as a functional update. -/
def modAt (f : YNode → YNode) : Nat → List YNode → List YNode
  | _, [] => []
  | 0, c :: cs => f c :: cs
  | i + 1, c :: cs => c :: modAt f i cs

/-- Embedding of the in-place assignment `node.Value = digest` performed
through a node handle: functionally update the `Value` at path `p`. -/
def setValue (n : YNode) (p : Path) (w : String) : YNode :=
  match n, p with
  | .mk k t _ cs, [] => .mk k t w cs
  | .mk k t v cs, i :: q => .mk k t v (modAt (fun c => setValue c q w) i cs)
termination_by p.length
decreasing_by simp

/-! ### The go-yit iterator pipeline used by `refsFromDoc`

`yit.FromNode(doc).RecurseNodes()` enumerates the document's nodes in
depth-first pre-order (a node first, then its `Content` children in
order).  The embedding pairs each node with its path so that callers
keep the handle identity needed for rewriting. -/

mutual

/-- Embedding of `yit.FromNode(n).RecurseNodes()`: depth-first pre-order
enumeration of all nodes below (and including) `n`, with their paths. -/
def recurseNodes : YNode → List (Path × YNode)
  | .mk k t v cs => ([], .mk k t v cs) :: recurseFrom 0 cs

/-- Enumerate the subtrees of the children `cs`, whose indices start at
`i`, prefixing each path with its child index. -/
def recurseFrom : Nat → List YNode → List (Path × YNode)
  | _, [] => []
  | i, c :: cs =>
    (recurseNodes c).map (fun pn => (i :: pn.1, pn.2)) ++ recurseFrom (i + 1) cs

end

/-- Embedding of the go-yit `StringValue` predicate: a scalar node whose
short tag is `!!str`. -/
def stringValue (n : YNode) : Bool :=
  n.kind = YKind.scalar && n.tag = "!!str"

/-- Embedding of the go-yit `WithPrefix` predicate: it tests the raw
`node.Value` with `strings.HasPrefix`, without any trimming. -/
def withPfx (pfx : String) (n : YNode) : Bool := hasPfx n.value pfx

/-- Embedding of `refsFromDoc` (`pkg/resolve/resolve.go`): recurse over
the document, keep string scalars, and in strict mode additionally keep
only values carrying the `ko://` prefix. -/
def refsFromDoc (doc : YNode) (strict : Bool) : List (Path × YNode) :=
  let it := (recurseNodes doc).filter (fun pn => stringValue pn.2)
  if strict then it.filter (fun pn => withPfx koPfx pn.2) else it

/-! ### Basic lemmas about node access and mutation -/

theorem nodeAt_nil (n : YNode) : nodeAt n [] = some n := by
  cases n
  rfl

theorem valueAt_nil (n : YNode) : valueAt n [] = some n.value := by
  cases n
  rfl

theorem nodeAt_cons (k : YKind) (t v : String) (cs : List YNode) (j : Nat) (q : Path) :
    nodeAt (.mk k t v cs) (j :: q) = (cs[j]?).bind (fun c => nodeAt c q) := by
  cases hc : cs[j]? <;> simp [nodeAt, hc]

theorem valueAt_cons (k : YKind) (t v : String) (cs : List YNode) (j : Nat) (q : Path) :
    valueAt (.mk k t v cs) (j :: q) = (cs[j]?).bind (fun c => valueAt c q) := by
  cases hc : cs[j]? <;> simp [valueAt, nodeAt, hc]

theorem modAt_get? (f : YNode → YNode) :
    ∀ (cs : List YNode) (i j : Nat),
      (modAt f i cs)[j]? = if i = j then (cs[j]?).map f else cs[j]? := by
  intro cs
  induction cs with
  | nil => intro i j; simp [modAt]
  | cons c cs ih =>
    intro i j
    match i, j with
    | 0, 0 => simp [modAt]
    | 0, j + 1 => simp [modAt]
    | i + 1, 0 => simp [modAt]
    | i + 1, j + 1 =>
      simp only [modAt, List.getElem?_cons_succ]
      rw [ih i j]
      by_cases h : i = j <;> simp [h]

/-- Functional update of the value at `p` changes exactly the value read
back at `p` (when the path is valid) and nothing else. -/
theorem valueAt_setValue (w : String) :
    ∀ (p : Path) (n : YNode) (q : Path),
      valueAt (setValue n p w) q =
        if q = p then (valueAt n q).map (fun _ => w) else valueAt n q := by
  intro p
  induction p with
  | nil =>
    intro n q
    cases n with
    | mk k t v cs =>
      cases q with
      | nil => simp [setValue, valueAt_nil, YNode.value]
      | cons j qs => simp [setValue, valueAt_cons]
  | cons i ps ih =>
    intro n q
    cases n with
    | mk k t v cs =>
      cases q with
      | nil => simp [setValue, valueAt_nil, YNode.value]
      | cons j qs =>
        have huf : setValue (.mk k t v cs) (i :: ps) w
            = .mk k t v (modAt (fun c => setValue c ps w) i cs) := by
          simp [setValue]
        rw [huf, valueAt_cons, valueAt_cons, modAt_get?]
        by_cases hij : i = j
        · subst hij
          cases hc : cs[i]? with
          | none => by_cases hq : qs = ps <;> simp [hq]
          | some c =>
            simp only [if_pos rfl, if_true, Option.map_some', Option.some_bind]
            rw [ih c qs]
            by_cases hq : qs = ps <;> simp [hq]
        · simp only [if_neg hij]
          have hne : (j :: qs) ≠ (i :: ps) := by
            intro hcontra
            exact hij (by injection hcontra with h1 _; exact h1.symm)
          rw [if_neg hne]

/-! ### Walker membership: a yielded handle really is the node at its
path, so rewriting through the handle is rewriting at that path. -/

mutual

theorem mem_recurseNodes (n : YNode) (p : Path) (m : YNode)
    (h : (p, m) ∈ recurseNodes n) : nodeAt n p = some m := by
  cases n with
  | mk k t v cs =>
    simp only [recurseNodes] at h
    rcases List.mem_cons.mp h with h0 | h1
    · cases h0
      exact nodeAt_nil _
    · obtain ⟨j, ps, c, hp, hget, hnode⟩ := mem_recurseFrom 0 cs p m h1
      subst hp
      rw [Nat.zero_add, nodeAt_cons, hget]
      exact hnode

theorem mem_recurseFrom (i : Nat) (cs : List YNode) (p : Path) (m : YNode)
    (h : (p, m) ∈ recurseFrom i cs) :
    ∃ j ps c, p = (i + j) :: ps ∧ cs[j]? = some c ∧ nodeAt c ps = some m := by
  cases cs with
  | nil => simp [recurseFrom] at h
  | cons c cs =>
    simp only [recurseFrom, List.mem_append] at h
    rcases h with h0 | h1
    · obtain ⟨⟨ps, m'⟩, hmem, heq⟩ := List.mem_map.mp h0
      cases heq
      exact ⟨0, ps, c, by simp, by simp, mem_recurseNodes c ps m' hmem⟩
    · obtain ⟨j, ps, c', hp, hget, hnode⟩ := mem_recurseFrom (i + 1) cs p m h1
      refine ⟨j + 1, ps, c', ?_, by simpa using hget, hnode⟩
      subst hp
      have : i + 1 + j = i + (j + 1) := by omega
      rw [this]

end

/-! ### External collaborators

`build.Interface` and `publish.Interface` are external (the compiler and
the registry client).  They are embedded as function records; an
`Artifact` (the `v1.Image` a build produces) and a `Digest` (the string
form of the `name.Reference` a publish returns, stored verbatim) are
both opaque strings here. -/

/-- Embedding of `build.Interface` as used by `ImageReferences`. -/
structure Builder where
  IsSupportedReference : String → Bool
  Build : String → Except String String

/-- Embedding of `publish.Interface` as used by `ImageReferences`:
`Publish(img, ref)` returns a digest (already as `digest.String()`). -/
structure Publisher where
  Publish : String → String → Except String String

/-- A handle to a node inside a document batch: document index paired
with the path inside that document. -/
abbrev Site := Nat × Path

/-- The reference index: `refs map[string][]*yaml.Node` of
`ImageReferences`, as an association list in key-insertion order (the
Go map is unordered; every claim proved below is order-independent). -/
abbrev RefMap := List (String × List Site)

/-- Embedding of `refs[tref] = append(refs[tref], node)`. -/
def addRef : RefMap → String → Site → RefMap
  | [], k, s => [(k, [s])]
  | (k', ss) :: rest, k, s =>
    if k' = k then (k', ss ++ [s]) :: rest else (k', ss) :: addRef rest k s

/-- Sites recorded under key `r` (empty when the key is absent). -/
def lookupSites : RefMap → String → List Site
  | [], _ => []
  | (k, ss) :: rest, r => if k = r then ss else lookupSites rest r

/-- The keys of the reference index, in insertion order. -/
def keysOf (m : RefMap) : List String := m.map (fun e => e.1)

/-- The message of `fmt.Errorf("found strict reference but %s is not a
valid import path", ref)`. -/
def strictErr (ref : String) : String :=
  "found strict reference but " ++ ref ++ " is not a valid import path"

/-- The bare reference of a node: `strings.TrimPrefix(strings.TrimSpace(
node.Value), koPrefix)`. -/
def keyOf (n : YNode) : String := trimPfx (trimSpace n.value) koPfx

/-- Discovery, inner loop of `ImageReferences`: for each walked node of
one document, record supported references, or fail in strict mode. -/
def collectNodes (b : Builder) (strict : Bool) (i : Nat) :
    List (Path × YNode) → RefMap → Except String RefMap
  | [], m => .ok m
  | pn :: rest, m =>
    let ref := trimSpace pn.2.value
    let tref := trimPfx ref koPfx
    if b.IsSupportedReference tref then
      collectNodes b strict i rest (addRef m tref (i, pn.1))
    else if strict then
      .error (strictErr ref)
    else
      collectNodes b strict i rest m

/-- Discovery, outer loop of `ImageReferences`: walk every document of
the batch in order (`i` is the index of the first document). -/
def collectDocs (b : Builder) (strict : Bool) :
    Nat → List YNode → RefMap → Except String RefMap
  | _, [], m => .ok m
  | i, doc :: docs, m =>
    match collectNodes b strict i (refsFromDoc doc strict) m with
    | .error e => .error e
    | .ok m' => collectDocs b strict (i + 1) docs m'

/-- The calls `ImageReferences` makes against the external builder and
publisher, in order. -/
structure CallTrace where
  builds : List String
  publishes : List String
  deriving DecidableEq, Repr

/-- Concatenation of call traces. -/
def traceApp (t u : CallTrace) : CallTrace :=
  ⟨t.builds ++ u.builds, t.publishes ++ u.publishes⟩

/-- One `errg.Go` task body of `ImageReferences`: `builder.Build(ref)`
then `publisher.Publish(img, ref)`, recording which calls were made. -/
def runTask (b : Builder) (pub : Publisher) (ref : String) :
    CallTrace × Except String String :=
  match b.Build ref with
  | .error e => (⟨[ref], []⟩, .error e)
  | .ok img =>
    match pub.Publish img ref with
    | .error e => (⟨[ref], [ref]⟩, .error e)
    | .ok digest => (⟨[ref], [ref]⟩, .ok digest)

/-- The parallel phase of `ImageReferences`: one task per distinct key.
The zero-value `errgroup.Group` has no cancellation, so every task runs
to completion; `Wait` then reports the first error. -/
def runTasks (b : Builder) (pub : Publisher) :
    List String → CallTrace × List (String × Except String String)
  | [] => (⟨[], []⟩, [])
  | r :: rs =>
    let t := runTask b pub r
    let rest := runTasks b pub rs
    (traceApp t.1 rest.1, (r, t.2) :: rest.2)

/-- The error returned by `errg.Wait()`: the first failing task's error
(in the model's task order), or `none` when all tasks succeeded. -/
def firstErr : List (String × Except String String) → Option String
  | [] => none
  | (_, .error e) :: _ => some e
  | (_, .ok _) :: rest => firstErr rest

/-- The contents of the `sync.Map` after the parallel phase: one
`(ref, digest)` entry per successful task. -/
def okPairs : List (String × Except String String) → List (String × String)
  | [] => []
  | (r, .ok d) :: rest => (r, d) :: okPairs rest
  | (_, .error _) :: rest => okPairs rest

/-- Lookup in the digest map (`sm.Load(ref)`). -/
def lookupStr : List (String × String) → String → Option String
  | [], _ => none
  | (k, v) :: rest, r => if k = r then some v else lookupStr rest r

/-- The message of `fmt.Errorf("resolved reference to %q not found",
ref)`. -/
def notFoundErr (r : String) : String :=
  "resolved reference to \x22" ++ r ++ "\x22 not found"

/-- Assignment `node.Value = digest` through a batch-level handle. -/
def setSite (docs : List YNode) (s : Site) (w : String) : List YNode :=
  modAt (fun d => setValue d s.2 w) s.1 docs

/-- Rewrite every recorded node of one reference with its digest. -/
def writeSites (docs : List YNode) (ss : List Site) (w : String) : List YNode :=
  ss.foldl (fun ds s => setSite ds s w) docs

/-- The rewrite phase of `ImageReferences`: for each index entry look up
the digest and overwrite every recorded node. -/
def rewriteEntries (sm : List (String × String)) :
    List YNode → RefMap → List YNode × Option String
  | docs, [] => (docs, none)
  | docs, (r, ss) :: rest =>
    match lookupStr sm r with
    | none => (docs, some (notFoundErr r))
    | some d => rewriteEntries sm (writeSites docs ss d) rest

/-- The outcome of `ImageReferences` on a batch: the calls made against
builder and publisher, the final state of the (mutated) documents, and
the returned error if any. -/
structure IRResult where
  trace : CallTrace
  docs : List YNode
  err : Option String

/-- Embedding of `ImageReferences` (`pkg/resolve/resolve.go`): discover
supported references (strict mode failing on unsupported `ko://`
values), build and publish each distinct bare reference once, and on
full success rewrite every recorded node with its digest.  An error
leaves the documents as they were. -/
def ImageReferences (docs : List YNode) (strict : Bool)
    (b : Builder) (pub : Publisher) : IRResult :=
  match collectDocs b strict 0 docs [] with
  | .error e => ⟨⟨[], []⟩, docs, some e⟩
  | .ok m =>
    let tr := runTasks b pub (keysOf m)
    match firstErr tr.2 with
    | some e => ⟨tr.1, docs, some e⟩
    | none =>
      let rw := rewriteEntries (okPairs tr.2) docs m
      ⟨tr.1, rw.1, rw.2⟩

/-! ### Specification views of the discovery phase -/

/-- All walked handles of the batch in processing order, the document
index of the first document being `i`. -/
def walkAllFrom (strict : Bool) : Nat → List YNode → List (Site × YNode)
  | _, [] => []
  | i, d :: ds =>
    (refsFromDoc d strict).map (fun pn => ((i, pn.1), pn.2))
      ++ walkAllFrom strict (i + 1) ds

/-- All walked handles of the batch in processing order. -/
def walkAll (docs : List YNode) (strict : Bool) : List (Site × YNode) :=
  walkAllFrom strict 0 docs

/-- A walked node whose bare reference the builder does not support
(within one document; `offSN` is the batch-level version). -/
def offNode (b : Builder) (pn : Path × YNode) : Bool :=
  !(b.IsSupportedReference (keyOf pn.2))

/-- A walked handle whose bare reference the builder does not support. -/
def offSN (b : Builder) (sn : Site × YNode) : Bool :=
  !(b.IsSupportedReference (keyOf sn.2))

/-- The `(bare ref, site)` pair recorded for a supported walked node of
one document. -/
def pairNode (b : Builder) (i : Nat) (pn : Path × YNode) : Option (String × Site) :=
  if b.IsSupportedReference (keyOf pn.2) then some (keyOf pn.2, (i, pn.1)) else none

/-- The `(bare ref, site)` pair recorded for a supported walked handle. -/
def keepPair (b : Builder) (sn : Site × YNode) : Option (String × Site) :=
  if b.IsSupportedReference (keyOf sn.2) then some (keyOf sn.2, sn.1) else none

/-- One insertion step of the reference index. -/
def step (m : RefMap) (ks : String × Site) : RefMap := addRef m ks.1 ks.2

/-! ### Association-list lemmas for the reference index -/

theorem lookupSites_addRef (s : Site) :
    ∀ (m : RefMap) (k r : String),
      lookupSites (addRef m k s) r =
        if k = r then lookupSites m r ++ [s] else lookupSites m r := by
  intro m
  induction m with
  | nil =>
    intro k r
    by_cases h : k = r <;> simp [addRef, lookupSites, h]
  | cons e rest ih =>
    intro k r
    obtain ⟨k', ss⟩ := e
    by_cases hk : k' = k
    · subst hk
      by_cases hr : k' = r <;> simp [addRef, lookupSites, hr]
    · by_cases hr : k' = r
      · subst hr
        have : ¬(k = k') := fun h => hk h.symm
        simp [addRef, lookupSites, hk, this]
      · simp [addRef, lookupSites, hk, hr, ih k r]

theorem mem_keysOf_addRef (s : Site) :
    ∀ (m : RefMap) (k r : String),
      r ∈ keysOf (addRef m k s) ↔ r ∈ keysOf m ∨ r = k := by
  intro m
  induction m with
  | nil => intro k r; simp [addRef, keysOf]
  | cons e rest ih =>
    intro k r
    obtain ⟨k', ss⟩ := e
    by_cases hk : k' = k
    · have ha : addRef ((k', ss) :: rest) k s = (k', ss ++ [s]) :: rest := by
        simp [addRef, hk]
      rw [ha]
      subst hk
      simp only [keysOf, List.map_cons, List.mem_cons]
      tauto
    · simp only [addRef, if_neg hk, keysOf, List.map_cons, List.mem_cons]
      rw [show List.map (fun e => e.1) (addRef rest k s) = keysOf (addRef rest k s) from rfl]
      rw [ih k r]
      tauto

theorem nodup_keysOf_addRef (s : Site) :
    ∀ (m : RefMap) (k : String),
      (keysOf m).Nodup → (keysOf (addRef m k s)).Nodup := by
  intro m
  induction m with
  | nil => intro k _; simp [addRef, keysOf]
  | cons e rest ih =>
    intro k hnd
    obtain ⟨k', ss⟩ := e
    simp only [keysOf, List.map_cons, List.nodup_cons] at hnd
    by_cases hk : k' = k
    · subst hk
      simpa [addRef, keysOf, List.nodup_cons] using hnd
    · simp only [addRef, if_neg hk, keysOf, List.map_cons, List.nodup_cons]
      refine ⟨?_, ih k hnd.2⟩
      rw [show List.map (fun e => e.1) (addRef rest k s) = keysOf (addRef rest k s) from rfl]
      rw [mem_keysOf_addRef]
      rintro (h | h)
      · exact hnd.1 h
      · exact hk h

theorem lookupSites_foldl :
    ∀ (l : List (String × Site)) (m : RefMap) (r : String),
      lookupSites (l.foldl step m) r =
        lookupSites m r ++ (l.filter (fun ks => ks.1 = r)).map (fun ks => ks.2) := by
  intro l
  induction l with
  | nil => intro m r; simp
  | cons e l ih =>
    intro m r
    obtain ⟨k, s⟩ := e
    rw [List.foldl_cons, ih, show step m (k, s) = addRef m k s from rfl,
      lookupSites_addRef]
    by_cases hk : k = r
    · subst hk
      simp [List.filter_cons]
    · simp [List.filter_cons, hk]

theorem mem_keysOf_foldl :
    ∀ (l : List (String × Site)) (m : RefMap) (r : String),
      r ∈ keysOf (l.foldl step m) ↔ r ∈ keysOf m ∨ r ∈ l.map (fun ks => ks.1) := by
  intro l
  induction l with
  | nil => intro m r; simp
  | cons e l ih =>
    intro m r
    obtain ⟨k, s⟩ := e
    rw [List.foldl_cons, ih, show step m (k, s) = addRef m k s from rfl,
      mem_keysOf_addRef]
    simp
    tauto

theorem nodup_keysOf_foldl :
    ∀ (l : List (String × Site)) (m : RefMap),
      (keysOf m).Nodup → (keysOf (l.foldl step m)).Nodup := by
  intro l
  induction l with
  | nil => intro m h; simpa using h
  | cons e l ih =>
    intro m h
    obtain ⟨k, s⟩ := e
    exact ih _ (nodup_keysOf_addRef s m k h)

/-! ### Equational characterisation of the discovery phase -/

theorem collectNodes_cons (b : Builder) (strict : Bool) (i : Nat)
    (pn : Path × YNode) (rest : List (Path × YNode)) (m : RefMap) :
    collectNodes b strict i (pn :: rest) m =
      if b.IsSupportedReference (keyOf pn.2) then
        collectNodes b strict i rest (addRef m (keyOf pn.2) (i, pn.1))
      else if strict then .error (strictErr (trimSpace pn.2.value))
      else collectNodes b strict i rest m := rfl

theorem collectNodes_eq_false (b : Builder) (i : Nat) :
    ∀ (pns : List (Path × YNode)) (m : RefMap),
      collectNodes b false i pns m
        = .ok ((pns.filterMap (pairNode b i)).foldl step m) := by
  intro pns
  induction pns with
  | nil => intro m; rfl
  | cons pn rest ih =>
    intro m
    rw [collectNodes_cons]
    by_cases hs : b.IsSupportedReference (keyOf pn.2)
    · rw [if_pos hs, ih]
      have h3 : pairNode b i pn = some (keyOf pn.2, (i, pn.1)) := by
        simp [pairNode, hs]
      simp [List.filterMap_cons, h3, step]
    · rw [if_neg hs, if_neg (by simp), ih]
      have h3 : pairNode b i pn = none := by simp [pairNode, hs]
      simp [List.filterMap_cons, h3]

theorem collectNodes_eq_true (b : Builder) (i : Nat) :
    ∀ (pns : List (Path × YNode)) (m : RefMap),
      collectNodes b true i pns m
        = match pns.find? (offNode b) with
          | some pn => .error (strictErr (trimSpace pn.2.value))
          | none => .ok ((pns.filterMap (pairNode b i)).foldl step m) := by
  intro pns
  induction pns with
  | nil => intro m; rfl
  | cons pn rest ih =>
    intro m
    rw [collectNodes_cons]
    by_cases hs : b.IsSupportedReference (keyOf pn.2)
    · rw [if_pos hs, ih]
      have h2 : offNode b pn = false := by simp [offNode, hs]
      have h3 : pairNode b i pn = some (keyOf pn.2, (i, pn.1)) := by
        simp [pairNode, hs]
      simp [List.find?_cons, h2, List.filterMap_cons, h3, step]
    · rw [if_neg hs, if_pos rfl]
      have h2 : offNode b pn = true := by simp [offNode, hs]
      simp [List.find?_cons, h2]

theorem collectDocs_cons (b : Builder) (strict : Bool) (i : Nat)
    (d : YNode) (ds : List YNode) (m : RefMap) :
    collectDocs b strict i (d :: ds) m =
      match collectNodes b strict i (refsFromDoc d strict) m with
      | .error e => .error e
      | .ok m' => collectDocs b strict (i + 1) ds m' := rfl

theorem collectDocs_eq_false (b : Builder) :
    ∀ (docs : List YNode) (i : Nat) (m : RefMap),
      collectDocs b false i docs m
        = .ok (((walkAllFrom false i docs).filterMap (keepPair b)).foldl step m) := by
  intro docs
  induction docs with
  | nil => intro i m; rfl
  | cons d ds ih =>
    intro i m
    have hfm : ((refsFromDoc d false).map
          (fun pn => ((i, pn.1), pn.2))).filterMap (keepPair b)
        = (refsFromDoc d false).filterMap (pairNode b i) := by
      rw [List.filterMap_map]
      rfl
    rw [collectDocs_cons, collectNodes_eq_false]
    show collectDocs b false (i + 1) ds
        (((refsFromDoc d false).filterMap (pairNode b i)).foldl step m) = _
    rw [ih,
      show walkAllFrom false i (d :: ds)
          = (refsFromDoc d false).map (fun pn => ((i, pn.1), pn.2))
            ++ walkAllFrom false (i + 1) ds from rfl,
      List.filterMap_append, hfm, List.foldl_append]

theorem collectDocs_eq_true (b : Builder) :
    ∀ (docs : List YNode) (i : Nat) (m : RefMap),
      collectDocs b true i docs m
        = match (walkAllFrom true i docs).find? (offSN b) with
          | some sn => .error (strictErr (trimSpace sn.2.value))
          | none => .ok (((walkAllFrom true i docs).filterMap (keepPair b)).foldl step m) := by
  intro docs
  induction docs with
  | nil => intro i m; rfl
  | cons d ds ih =>
    intro i m
    have hfind : ((refsFromDoc d true).map
          (fun pn => ((i, pn.1), pn.2))).find? (offSN b)
        = ((refsFromDoc d true).find? (offNode b)).map
            (fun pn => ((i, pn.1), pn.2)) := by
      rw [List.find?_map]
      rfl
    have hfm : ((refsFromDoc d true).map
          (fun pn => ((i, pn.1), pn.2))).filterMap (keepPair b)
        = (refsFromDoc d true).filterMap (pairNode b i) := by
      rw [List.filterMap_map]
      rfl
    rw [collectDocs_cons, collectNodes_eq_true,
      show walkAllFrom true i (d :: ds)
          = (refsFromDoc d true).map (fun pn => ((i, pn.1), pn.2))
            ++ walkAllFrom true (i + 1) ds from rfl,
      List.find?_append, hfind]
    cases hoff : (refsFromDoc d true).find? (offNode b) with
    | some pn => simp
    | none =>
      simp only [Option.map_none', Option.none_or]
      show collectDocs b true (i + 1) ds
          (((refsFromDoc d true).filterMap (pairNode b i)).foldl step m) = _
      rw [ih]
      cases hoff2 : (walkAllFrom true (i + 1) ds).find? (offSN b) with
      | some sn => simp
      | none => simp [List.filterMap_append, hfm, List.foldl_append]

/-! ### The parallel build/publish phase -/

/-- Whether `builder.Build(r)` succeeds. -/
def buildOk (b : Builder) (r : String) : Bool :=
  match b.Build r with
  | .ok _ => true
  | .error _ => false

theorem runTasks_eq (b : Builder) (pub : Publisher) :
    ∀ rs : List String,
      runTasks b pub rs
        = (⟨rs, rs.filter (buildOk b)⟩,
           rs.map (fun r => (r, (runTask b pub r).2))) := by
  intro rs
  induction rs with
  | nil => simp [runTasks]
  | cons r rs ih =>
    rw [show runTasks b pub (r :: rs)
          = (traceApp (runTask b pub r).1 (runTasks b pub rs).1,
             (r, (runTask b pub r).2) :: (runTasks b pub rs).2) from rfl]
    rw [ih]
    cases hb : b.Build r with
    | error e =>
      have hok : buildOk b r = false := by simp [buildOk, hb]
      simp [runTask, hb, traceApp, List.filter_cons, hok]
    | ok img =>
      have hok : buildOk b r = true := by simp [buildOk, hb]
      cases hp : pub.Publish img r <;>
        simp [runTask, hb, hp, traceApp, List.filter_cons, hok]

theorem firstErr_map_none_iff (g : String → Except String String) :
    ∀ rs : List String,
      firstErr (rs.map (fun r => (r, g r))) = none ↔ ∀ r ∈ rs, ∃ d, g r = .ok d := by
  intro rs
  induction rs with
  | nil => simp [firstErr]
  | cons r rs ih =>
    cases hg : g r with
    | error e => simp [firstErr, hg]
    | ok d =>
      rw [List.map_cons, show firstErr ((r, g r) :: rs.map (fun r => (r, g r)))
            = firstErr (rs.map (fun r => (r, g r))) by rw [hg]; rfl]
      rw [ih]
      constructor
      · intro h r' h1
        rcases List.mem_cons.mp h1 with h2 | h2
        · exact ⟨d, by simpa [h2] using hg⟩
        · exact h r' h2
      · intro h r' h1
        exact h r' (List.mem_cons_of_mem _ h1)

theorem lookupStr_okPairs_map (g : String → Except String String) :
    ∀ (rs : List String) (x : String) (d : String),
      g x = .ok d → x ∈ rs →
      lookupStr (okPairs (rs.map (fun r => (r, g r)))) x = some d := by
  intro rs
  induction rs with
  | nil => intro x d _ hmem; simp at hmem
  | cons r rs ih =>
    intro x d hx hmem
    by_cases hr : r = x
    · subst hr
      rw [List.map_cons, show okPairs ((r, g r) :: rs.map (fun s => (s, g s)))
            = (r, d) :: okPairs (rs.map (fun s => (s, g s))) by rw [hx]; rfl]
      simp [lookupStr]
    · have hmem' : x ∈ rs := by
        rcases List.mem_cons.mp hmem with h | h
        · exact absurd h.symm hr
        · exact h
      cases hg : g r with
      | error e =>
        rw [List.map_cons, show okPairs ((r, g r) :: rs.map (fun s => (s, g s)))
              = okPairs (rs.map (fun s => (s, g s))) by rw [hg]; rfl]
        exact ih x d hx hmem'
      | ok dr =>
        rw [List.map_cons, show okPairs ((r, g r) :: rs.map (fun s => (s, g s)))
              = (r, dr) :: okPairs (rs.map (fun s => (s, g s))) by rw [hg]; rfl]
        rw [show lookupStr ((r, dr) :: okPairs (rs.map (fun s => (s, g s)))) x
              = lookupStr (okPairs (rs.map (fun s => (s, g s)))) x by
            simp [lookupStr, hr]]
        exact ih x d hx hmem'

/-! ### The rewrite phase -/

/-- Batch-level value read at a site. -/
def siteValue (docs : List YNode) (s : Site) : Option String :=
  (docs[s.1]?).bind (fun d => valueAt d s.2)

/-- Sequence of single-site assignments, applied left to right. -/
def applyWrites (docs : List YNode) (ws : List (Site × String)) : List YNode :=
  ws.foldl (fun ds sw => setSite ds sw.1 sw.2) docs

/-- The value of the last write to `s` in `ws`, if any. -/
def lastVal : List (Site × String) → Site → Option String
  | [], _ => none
  | (t, v) :: ws, s =>
    match lastVal ws s with
    | some u => some u
    | none => if t = s then some v else none

/-- The flat list of assignments the rewrite phase performs: for every
index entry, each recorded site receives the entry's digest. -/
def writesOf (sm : List (String × String)) (m : RefMap) : List (Site × String) :=
  m.flatMap (fun e => e.2.map (fun s => (s, (lookupStr sm e.1).getD "")))

theorem siteValue_setSite (docs : List YNode) (t : Site) (w : String) (s : Site) :
    siteValue (setSite docs t w) s =
      if s = t then (siteValue docs s).map (fun _ => w) else siteValue docs s := by
  obtain ⟨i, p⟩ := t
  obtain ⟨j, q⟩ := s
  show ((modAt (fun d => setValue d p w) i docs)[j]?).bind (fun d => valueAt d q) = _
  rw [modAt_get?]
  by_cases hij : i = j
  · subst hij
    rw [if_pos rfl]
    cases hd : docs[i]? with
    | none =>
      by_cases hq : (i, q) = (i, p) <;> simp [siteValue, hd, hq]
    | some d =>
      simp only [Option.map_some', Option.some_bind]
      rw [valueAt_setValue]
      by_cases hq : q = p
      · rw [if_pos hq, if_pos (by rw [hq])]
        simp [siteValue, hd]
      · rw [if_neg hq, if_neg (by simp [Prod.ext_iff, hq])]
        simp [siteValue, hd]
  · rw [if_neg hij, if_neg (by simp [Prod.ext_iff]; intro h; exact absurd h.symm hij)]
    rfl

theorem siteValue_applyWrites :
    ∀ (ws : List (Site × String)) (docs : List YNode) (s : Site),
      siteValue (applyWrites docs ws) s =
        match lastVal ws s with
        | some v => (siteValue docs s).map (fun _ => v)
        | none => siteValue docs s := by
  intro ws
  induction ws with
  | nil => intro docs s; rfl
  | cons tv ws ih =>
    intro docs s
    obtain ⟨t, v⟩ := tv
    rw [show applyWrites docs ((t, v) :: ws) = applyWrites (setSite docs t v) ws from rfl,
      ih, siteValue_setSite,
      show lastVal ((t, v) :: ws) s
          = (match lastVal ws s with
             | some u => some u
             | none => if t = s then some v else none) from rfl]
    cases hl : lastVal ws s with
    | some u =>
      by_cases hst : s = t
      · rw [if_pos hst]
        cases hsv : siteValue docs s <;> simp
      · rw [if_neg hst]
    | none =>
      by_cases hst : s = t
      · rw [if_pos hst, if_pos hst.symm]
      · rw [if_neg hst, if_neg (fun h => hst h.symm)]

theorem get?_setSite (docs : List YNode) (t : Site) (w : String) (j : Nat) :
    (setSite docs t w)[j]?
      = if t.1 = j then (docs[j]?).map (fun d => setValue d t.2 w) else docs[j]? := by
  obtain ⟨i, p⟩ := t
  exact modAt_get? _ docs i j

theorem get?_applyWrites :
    ∀ (ws : List (Site × String)) (docs : List YNode) (j : Nat),
      (∀ sw ∈ ws, sw.1.1 ≠ j) → (applyWrites docs ws)[j]? = docs[j]? := by
  intro ws
  induction ws with
  | nil => intro docs j _; rfl
  | cons tv ws ih =>
    intro docs j h
    obtain ⟨t, v⟩ := tv
    rw [show applyWrites docs ((t, v) :: ws) = applyWrites (setSite docs t v) ws from rfl,
      ih _ _ (fun sw hsw => h sw (List.mem_cons_of_mem _ hsw)),
      get?_setSite, if_neg (h (t, v) (List.mem_cons_self _ _))]

theorem writeSites_eq_applyWrites (docs : List YNode) (ss : List Site) (w : String) :
    writeSites docs ss w = applyWrites docs (ss.map (fun s => (s, w))) := by
  rw [writeSites, applyWrites, List.foldl_map]

theorem rewriteEntries_ok (sm : List (String × String)) :
    ∀ (m : RefMap) (docs : List YNode),
      (∀ e ∈ m, (lookupStr sm e.1).isSome) →
      rewriteEntries sm docs m = (applyWrites docs (writesOf sm m), none) := by
  intro m
  induction m with
  | nil => intro docs _; rfl
  | cons e rest ih =>
    intro docs h
    obtain ⟨r, ss⟩ := e
    cases hl : lookupStr sm r with
    | none =>
      have := h (r, ss) (List.mem_cons_self _ _)
      rw [hl] at this
      simp at this
    | some d =>
      rw [show rewriteEntries sm docs ((r, ss) :: rest)
            = (match lookupStr sm r with
               | none => (docs, some (notFoundErr r))
               | some d => rewriteEntries sm (writeSites docs ss d) rest) from rfl,
        hl]
      show rewriteEntries sm (writeSites docs ss d) rest = _
      rw [ih _ (fun e he => h e (List.mem_cons_of_mem _ he))]
      rw [show writesOf sm ((r, ss) :: rest)
            = ss.map (fun s => (s, (lookupStr sm r).getD "")) ++ writesOf sm rest from rfl,
        hl]
      rw [show (some d).getD "" = d from rfl]
      have hws : writeSites docs ss d
          = (ss.map (fun s => (s, d))).foldl (fun ds sw => setSite ds sw.1 sw.2) docs :=
        writeSites_eq_applyWrites docs ss d
      show (List.foldl (fun ds sw => setSite ds sw.1 sw.2)
              (writeSites docs ss d) (writesOf sm rest), (none : Option String))
          = (List.foldl (fun ds sw => setSite ds sw.1 sw.2) docs
              (ss.map (fun s => (s, d)) ++ writesOf sm rest), (none : Option String))
      rw [List.foldl_append, hws]

/-! ### Helper lemmas about `lastVal` and `writesOf` -/

theorem lastVal_append (s : Site) :
    ∀ (a b : List (Site × String)),
      lastVal (a ++ b) s =
        match lastVal b s with
        | some u => some u
        | none => lastVal a s := by
  intro a b
  induction a with
  | nil => cases hl : lastVal b s <;> simp [lastVal, hl]
  | cons tv a ih =>
    obtain ⟨t, v⟩ := tv
    rw [List.cons_append,
      show lastVal ((t, v) :: (a ++ b)) s
          = (match lastVal (a ++ b) s with
             | some u => some u
             | none => if t = s then some v else none) from rfl,
      ih]
    cases hl : lastVal b s with
    | some u => rfl
    | none =>
      rw [show lastVal ((t, v) :: a) s
            = (match lastVal a s with
               | some u => some u
               | none => if t = s then some v else none) from rfl]

theorem lastVal_map_const_not_mem (v : String) (s : Site) :
    ∀ ss : List Site, s ∉ ss →
      lastVal (ss.map (fun x => (x, v))) s = none := by
  intro ss
  induction ss with
  | nil => intro _; rfl
  | cons x ss ih =>
    intro h
    rw [List.map_cons,
      show lastVal ((x, v) :: ss.map (fun x => (x, v))) s
          = (match lastVal (ss.map (fun x => (x, v))) s with
             | some u => some u
             | none => if x = s then some v else none) from rfl,
      ih (fun hm => h (List.mem_cons_of_mem _ hm)),
      if_neg (fun hx => h (List.mem_cons.mpr (Or.inl hx.symm)))]

theorem lastVal_map_const_mem (v : String) (s : Site) :
    ∀ ss : List Site, s ∈ ss →
      lastVal (ss.map (fun x => (x, v))) s = some v := by
  intro ss
  induction ss with
  | nil => intro h; simp at h
  | cons x ss ih =>
    intro h
    rw [List.map_cons,
      show lastVal ((x, v) :: ss.map (fun x => (x, v))) s
          = (match lastVal (ss.map (fun x => (x, v))) s with
             | some u => some u
             | none => if x = s then some v else none) from rfl]
    by_cases hmem : s ∈ ss
    · rw [ih hmem]
    · rw [lastVal_map_const_not_mem v s ss hmem]
      have hx : x = s := by
        rcases List.mem_cons.mp h with h1 | h1
        · exact h1.symm
        · exact absurd h1 hmem
      rw [if_pos hx]

theorem lastVal_writesOf_not_mem (sm : List (String × String)) (s : Site) :
    ∀ m : RefMap, (∀ e ∈ m, s ∉ e.2) →
      lastVal (writesOf sm m) s = none := by
  intro m
  induction m with
  | nil => intro _; rfl
  | cons e rest ih =>
    intro h
    obtain ⟨r, ss⟩ := e
    rw [show writesOf sm ((r, ss) :: rest)
          = ss.map (fun x => (x, (lookupStr sm r).getD "")) ++ writesOf sm rest from rfl,
      lastVal_append, ih (fun e he => h e (List.mem_cons_of_mem _ he)),
      lastVal_map_const_not_mem _ _ _ (h (r, ss) (List.mem_cons_self _ _))]

theorem lastVal_writesOf (sm : List (String × String)) (s : Site) (r : String) (d : String) :
    ∀ m : RefMap,
      (∀ e ∈ m, s ∈ e.2 → e.1 = r) →
      (∃ e ∈ m, s ∈ e.2) →
      lookupStr sm r = some d →
      lastVal (writesOf sm m) s = some d := by
  intro m
  induction m with
  | nil => rintro _ ⟨e, he, _⟩ _; simp at he
  | cons e rest ih =>
    intro hkey hmem hl
    obtain ⟨r', ss⟩ := e
    rw [show writesOf sm ((r', ss) :: rest)
          = ss.map (fun x => (x, (lookupStr sm r').getD "")) ++ writesOf sm rest from rfl,
      lastVal_append]
    by_cases hrest : ∃ e ∈ rest, s ∈ e.2
    · rw [ih (fun e he => hkey e (List.mem_cons_of_mem _ he)) hrest hl]
    · have hnone : lastVal (writesOf sm rest) s = none := by
        apply lastVal_writesOf_not_mem
        intro e he hmem'
        exact hrest ⟨e, he, hmem'⟩
      rw [hnone]
      have hs : s ∈ ss := by
        obtain ⟨e, he, hse⟩ := hmem
        rcases List.mem_cons.mp he with h1 | h1
        · rw [h1] at hse; exact hse
        · exact absurd ⟨e, h1, hse⟩ hrest
      have hr' : r' = r := hkey (r', ss) (List.mem_cons_self _ _) hs
      rw [hr', hl, show (some d).getD "" = d from rfl]
      exact lastVal_map_const_mem _ _ _ hs

/-! ### From walked handles to batch sites -/

theorem refsFromDoc_false (d : YNode) :
    refsFromDoc d false = (recurseNodes d).filter (fun pn => stringValue pn.2) := rfl

theorem refsFromDoc_true (d : YNode) :
    refsFromDoc d true
      = ((recurseNodes d).filter (fun pn => stringValue pn.2)).filter
          (fun pn => withPfx koPfx pn.2) := rfl

theorem mem_refsFromDoc_sub (d : YNode) (strict : Bool) (pn : Path × YNode)
    (h : pn ∈ refsFromDoc d strict) : pn ∈ recurseNodes d := by
  cases strict
  · rw [refsFromDoc_false] at h
    exact (List.mem_filter.mp h).1
  · rw [refsFromDoc_true] at h
    exact (List.mem_filter.mp (List.mem_filter.mp h).1).1

theorem mem_walkAllFrom (strict : Bool) :
    ∀ (ds : List YNode) (i : Nat) (s : Site) (n : YNode),
      (s, n) ∈ walkAllFrom strict i ds →
      ∃ j d, s.1 = i + j ∧ ds[j]? = some d ∧ (s.2, n) ∈ refsFromDoc d strict := by
  intro ds
  induction ds with
  | nil => intro i s n h; simp [walkAllFrom] at h
  | cons d ds ih =>
    intro i s n h
    rw [show walkAllFrom strict i (d :: ds)
          = (refsFromDoc d strict).map (fun pn => ((i, pn.1), pn.2))
            ++ walkAllFrom strict (i + 1) ds from rfl] at h
    rcases List.mem_append.mp h with h0 | h1
    · obtain ⟨⟨p, n'⟩, hmem, heq⟩ := List.mem_map.mp h0
      cases heq
      exact ⟨0, d, by simp, by simp, hmem⟩
    · obtain ⟨j, d', h1, h2, h3⟩ := ih (i + 1) s n h1
      exact ⟨j + 1, d', by omega, by simpa using h2, h3⟩

theorem walk_site_valid (docs : List YNode) (strict : Bool) (s : Site) (n : YNode)
    (h : (s, n) ∈ walkAll docs strict) :
    ∃ d, docs[s.1]? = some d ∧ nodeAt d s.2 = some n := by
  obtain ⟨j, d, h1, h2, h3⟩ := mem_walkAllFrom strict docs 0 s n h
  rw [Nat.zero_add] at h1
  exact ⟨d, h1 ▸ h2, mem_recurseNodes d s.2 n (mem_refsFromDoc_sub d strict _ h3)⟩

theorem walk_siteValue (docs : List YNode) (strict : Bool) (s : Site) (n : YNode)
    (h : (s, n) ∈ walkAll docs strict) : siteValue docs s = some n.value := by
  obtain ⟨d, h1, h2⟩ := walk_site_valid docs strict s n h
  show (docs[s.1]?).bind (fun d => valueAt d s.2) = some n.value
  rw [h1, Option.some_bind, valueAt, h2, Option.map_some']

theorem walk_det (docs : List YNode) (strict : Bool) (s : Site) (n n' : YNode)
    (h : (s, n) ∈ walkAll docs strict) (h' : (s, n') ∈ walkAll docs strict) : n = n' := by
  obtain ⟨d, h1, h2⟩ := walk_site_valid docs strict s n h
  obtain ⟨d', h1', h2'⟩ := walk_site_valid docs strict s n' h'
  rw [h1] at h1'
  injection h1' with hd
  rw [← hd] at h2'
  rw [h2] at h2'
  injection h2'

/-- The occurrence sites of bare reference `r` in the batch: the walked
handles whose (supported) bare reference is `r`, in walk order. -/
def sitesFor (docs : List YNode) (strict : Bool) (b : Builder) (r : String) : List Site :=
  (((walkAll docs strict).filterMap (keepPair b)).filter
    (fun ks => ks.1 = r)).map (fun ks => ks.2)

theorem mem_sitesFor (docs : List YNode) (strict : Bool) (b : Builder)
    (r : String) (s : Site) :
    s ∈ sitesFor docs strict b r ↔
      ∃ n, (s, n) ∈ walkAll docs strict
        ∧ b.IsSupportedReference (keyOf n) = true ∧ keyOf n = r := by
  constructor
  · intro h
    obtain ⟨ks, hmem, heq⟩ := List.mem_map.mp h
    obtain ⟨hmem2, hkr⟩ := List.mem_filter.mp hmem
    obtain ⟨⟨s'', n⟩, hw, hkeep⟩ := List.mem_filterMap.mp hmem2
    by_cases hs : b.IsSupportedReference (keyOf n)
    · rw [show keepPair b (s'', n)
            = (if b.IsSupportedReference (keyOf n)
               then some (keyOf n, s'') else none) from rfl,
        if_pos hs] at hkeep
      injection hkeep with hkeep
      subst hkeep
      subst heq
      refine ⟨n, hw, hs, ?_⟩
      simpa using hkr
    · rw [show keepPair b (s'', n)
            = (if b.IsSupportedReference (keyOf n)
               then some (keyOf n, s'') else none) from rfl,
        if_neg hs] at hkeep
      exact absurd hkeep (by simp)
  · rintro ⟨n, hw, hs, hk⟩
    apply List.mem_map.mpr
    refine ⟨(r, s), ?_, rfl⟩
    apply List.mem_filter.mpr
    refine ⟨?_, by simp⟩
    apply List.mem_filterMap.mpr
    refine ⟨(s, n), hw, ?_⟩
    show (if b.IsSupportedReference (keyOf n)
          then some (keyOf n, s) else none) = some (r, s)
    rw [if_pos hs, hk]

theorem sitesFor_disjoint (docs : List YNode) (strict : Bool) (b : Builder)
    (r r' : String) (s : Site)
    (h : s ∈ sitesFor docs strict b r) (h' : s ∈ sitesFor docs strict b r') : r = r' := by
  obtain ⟨n, hw, _, hk⟩ := (mem_sitesFor ..).mp h
  obtain ⟨n', hw', _, hk'⟩ := (mem_sitesFor ..).mp h'
  rw [← hk, ← hk', walk_det docs strict s n n' hw hw']

/-! ### Reference-index entry lemmas -/

theorem lookupSites_of_mem_nodup :
    ∀ (m : RefMap), (keysOf m).Nodup → ∀ e ∈ m, lookupSites m e.1 = e.2 := by
  intro m
  induction m with
  | nil => intro _ e he; simp at he
  | cons e' rest ih =>
    intro hnd e he
    obtain ⟨k', ss'⟩ := e'
    simp only [keysOf, List.map_cons, List.nodup_cons] at hnd
    rcases List.mem_cons.mp he with h1 | h1
    · rw [h1]
      simp [lookupSites]
    · have hne : k' ≠ e.1 := by
        intro hcontra
        exact hnd.1 (hcontra ▸ List.mem_map_of_mem (fun x => x.1) h1)
      rw [show lookupSites ((k', ss') :: rest) e.1
            = if k' = e.1 then ss' else lookupSites rest e.1 from rfl,
        if_neg hne]
      exact ih hnd.2 e h1

theorem mem_entry_of_mem_lookupSites :
    ∀ (m : RefMap) (r : String) (s : Site),
      s ∈ lookupSites m r → ∃ e ∈ m, e.1 = r ∧ s ∈ e.2 := by
  intro m
  induction m with
  | nil => intro r s h; simp [lookupSites] at h
  | cons e' rest ih =>
    intro r s h
    obtain ⟨k', ss'⟩ := e'
    rw [show lookupSites ((k', ss') :: rest) r
          = if k' = r then ss' else lookupSites rest r from rfl] at h
    by_cases hk : k' = r
    · rw [if_pos hk] at h
      exact ⟨(k', ss'), List.mem_cons_self _ _, hk, h⟩
    · rw [if_neg hk] at h
      obtain ⟨e, he, h1, h2⟩ := ih r s h
      exact ⟨e, List.mem_cons_of_mem _ he, h1, h2⟩

/-! ### Assembled facts about the `ImageReferences` pipeline -/

theorem collect_ok (b : Builder) (strict : Bool) (docs : List YNode) (m : RefMap)
    (hm : collectDocs b strict 0 docs [] = .ok m) :
    m = ((walkAll docs strict).filterMap (keepPair b)).foldl step [] := by
  cases strict
  · rw [collectDocs_eq_false] at hm
    injection hm with hm
    exact hm.symm
  · rw [collectDocs_eq_true] at hm
    cases hf : (walkAllFrom true 0 docs).find? (offSN b) with
    | some sn => rw [hf] at hm; simp at hm
    | none =>
      rw [hf] at hm
      injection hm with hm
      exact hm.symm

theorem lookupSites_collect (b : Builder) (strict : Bool) (docs : List YNode)
    (m : RefMap) (hm : collectDocs b strict 0 docs [] = .ok m) (r : String) :
    lookupSites m r = sitesFor docs strict b r := by
  rw [collect_ok b strict docs m hm, lookupSites_foldl]
  rfl

theorem nodup_keys_collect (b : Builder) (strict : Bool) (docs : List YNode)
    (m : RefMap) (hm : collectDocs b strict 0 docs [] = .ok m) :
    (keysOf m).Nodup := by
  rw [collect_ok b strict docs m hm]
  exact nodup_keysOf_foldl _ [] (by simp [keysOf])

theorem mem_keys_collect (b : Builder) (strict : Bool) (docs : List YNode)
    (m : RefMap) (hm : collectDocs b strict 0 docs [] = .ok m) (r : String) :
    r ∈ keysOf m ↔ sitesFor docs strict b r ≠ [] := by
  constructor
  · intro h
    rw [collect_ok b strict docs m hm] at h
    rcases (mem_keysOf_foldl _ [] r).mp h with h1 | h1
    · simp [keysOf] at h1
    · obtain ⟨⟨k, s⟩, hmem, hk⟩ := List.mem_map.mp h1
      intro hempty
      have : s ∈ sitesFor docs strict b r := by
        apply List.mem_map.mpr
        exact ⟨(k, s), List.mem_filter.mpr ⟨hmem, by simpa using hk⟩, rfl⟩
      rw [hempty] at this
      simp at this
  · intro h
    obtain ⟨s, hs⟩ := List.exists_mem_of_ne_nil _ h
    rw [← lookupSites_collect b strict docs m hm r] at hs
    obtain ⟨e, he, hk, _⟩ := mem_entry_of_mem_lookupSites m r s hs
    rw [← hk]
    exact List.mem_map_of_mem (fun x => x.1) he

/-! ### Trimming preserves the `ko://` prefix -/

theorem hasPfx_trimSpace_koPfx (s : String) (h : hasPfx s koPfx = true) :
    hasPfx (trimSpace s) koPfx = true := by
  unfold hasPfx at h ⊢
  rw [ List.isPrefixOf_iff_prefix] at h ⊢
  obtain ⟨r, hr⟩ := h
  have hdata : (trimSpace s).data
      = ((s.data.dropWhile isSpc).reverse.dropWhile isSpc).reverse := rfl
  rw [hdata, ← hr]
  have h1 : (koPfx.data ++ r).dropWhile isSpc = koPfx.data ++ r := by
    rw [show koPfx.data ++ r = 'k' :: ("o://".data ++ r) from rfl,
      List.dropWhile_cons]
    simp [isSpc]
  rw [h1, List.reverse_append, List.dropWhile_append]
  have h2 : koPfx.data.reverse.dropWhile isSpc = koPfx.data.reverse := by
    rw [show koPfx.data.reverse = '/' :: "/:ok".data from rfl, List.dropWhile_cons]
    simp [isSpc]
  by_cases he : (r.reverse.dropWhile isSpc).isEmpty
  · rw [if_pos he, h2, List.reverse_reverse]
  · rw [if_neg he, List.reverse_append, List.reverse_reverse]
    exact ⟨(r.reverse.dropWhile isSpc).reverse, rfl⟩

/-! ### Outcome of `ImageReferences` in its three exit situations -/

/-- The first walked handle of the batch, in strict walk order, whose
bare reference the builder does not support. -/
def firstOffender (b : Builder) (docs : List YNode) : Option (Site × YNode) :=
  (walkAll docs true).find? (offSN b)

theorem ImageReferences_of_collect_err (docs : List YNode) (strict : Bool)
    (b : Builder) (pub : Publisher) (e : String)
    (hc : collectDocs b strict 0 docs [] = .error e) :
    ImageReferences docs strict b pub = ⟨⟨[], []⟩, docs, some e⟩ := by
  unfold ImageReferences
  rw [hc]

theorem ImageReferences_of_task_err (docs : List YNode) (strict : Bool)
    (b : Builder) (pub : Publisher) (m : RefMap) (e : String)
    (hm : collectDocs b strict 0 docs [] = .ok m)
    (he : firstErr ((keysOf m).map (fun r => (r, (runTask b pub r).2))) = some e) :
    ImageReferences docs strict b pub
      = ⟨⟨keysOf m, (keysOf m).filter (buildOk b)⟩, docs, some e⟩ := by
  unfold ImageReferences
  rw [hm]
  simp only [runTasks_eq, he]

theorem ImageReferences_of_ok (docs : List YNode) (strict : Bool)
    (b : Builder) (pub : Publisher) (m : RefMap)
    (hm : collectDocs b strict 0 docs [] = .ok m)
    (hnone : firstErr ((keysOf m).map (fun r => (r, (runTask b pub r).2))) = none) :
    ImageReferences docs strict b pub
      = ⟨⟨keysOf m, (keysOf m).filter (buildOk b)⟩,
         applyWrites docs
           (writesOf (okPairs ((keysOf m).map (fun r => (r, (runTask b pub r).2)))) m),
         none⟩ := by
  have hall : ∀ r ∈ keysOf m, ∃ d, (runTask b pub r).2 = .ok d :=
    (firstErr_map_none_iff _ _).mp hnone
  have hsome : ∀ e ∈ m,
      (lookupStr (okPairs ((keysOf m).map (fun r => (r, (runTask b pub r).2)))) e.1).isSome := by
    intro e he
    obtain ⟨d, hd⟩ := hall e.1 (List.mem_map_of_mem (fun x => x.1) he)
    rw [lookupStr_okPairs_map _ (keysOf m) e.1 d hd
      (List.mem_map_of_mem (fun x => x.1) he)]
    rfl
  unfold ImageReferences
  rw [hm]
  simp only [runTasks_eq, hnone]
  rw [rewriteEntries_ok _ m docs hsome]

/-! ### Claim theorems for `ImageReferences` -/

/-- Claim C4: in strict mode, a walked scalar carrying a `ko://` value
whose bare reference is unsupported makes `ImageReferences` fail the
whole batch with the "not a valid import path" error; the message
contains the reference with its `ko://` prefix, no scalar is rewritten
(the documents are returned unchanged), and no build or publish call is
made. -/
theorem c4_strict_invalid_import_path (docs : List YNode) (b : Builder)
    (pub : Publisher) (sn : Site × YNode)
    (hoff : firstOffender b docs = some sn) :
    ∃ msg,
      ImageReferences docs true b pub = ⟨⟨[], []⟩, docs, some msg⟩
      ∧ msg = strictErr (trimSpace sn.2.value)
      ∧ hasPfx (trimSpace sn.2.value) koPfx = true
      ∧ ∃ pre suf, msg = pre ++ trimSpace sn.2.value ++ suf := by
  have hc : collectDocs b true 0 docs [] = .error (strictErr (trimSpace sn.2.value)) := by
    rw [collectDocs_eq_true,
      show walkAllFrom true 0 docs = walkAll docs true from rfl,
      show (walkAll docs true).find? (offSN b) = firstOffender b docs from rfl,
      hoff]
  refine ⟨strictErr (trimSpace sn.2.value),
    ImageReferences_of_collect_err docs true b pub _ hc, rfl, ?_, ?_⟩
  · have hmem : sn ∈ walkAll docs true :=
      List.mem_of_find?_eq_some hoff
    obtain ⟨s, n⟩ := sn
    obtain ⟨j, d, _, _, h3⟩ := mem_walkAllFrom true docs 0 s n hmem
    rw [refsFromDoc_true] at h3
    have hpfx : withPfx koPfx n = true := by
      simpa using (List.mem_filter.mp h3).2
    exact hasPfx_trimSpace_koPfx _ hpfx
  · exact ⟨"found strict reference but ", " is not a valid import path", rfl⟩

/-- Claim C5: when discovery succeeds yet some build or publish task
fails, `ImageReferences` returns the first failing task's error and the
documents are unchanged: the rewrite phase never runs. -/
theorem c5_first_error_discards_progress (docs : List YNode) (strict : Bool)
    (b : Builder) (pub : Publisher) (m : RefMap) (e : String)
    (hm : collectDocs b strict 0 docs [] = .ok m)
    (he : firstErr ((keysOf m).map (fun r => (r, (runTask b pub r).2))) = some e) :
    (ImageReferences docs strict b pub).err = some e
    ∧ (ImageReferences docs strict b pub).docs = docs := by
  rw [ImageReferences_of_task_err docs strict b pub m e hm he]
  exact ⟨rfl, rfl⟩

theorem mem_writesOf (sm : List (String × String)) (m : RefMap)
    (sw : Site × String) (h : sw ∈ writesOf sm m) : ∃ e ∈ m, sw.1 ∈ e.2 := by
  obtain ⟨e, he, hmem⟩ := List.mem_flatMap.mp h
  obtain ⟨s, hs, heq⟩ := List.mem_map.mp hmem
  refine ⟨e, he, ?_⟩
  rw [← heq]
  exact hs

/-- Claim C9: in non-strict mode, string scalars whose stripped value
the builder reports unsupported are never collected into the reference
index, and a document all of whose walked strings are unsupported comes
out of `ImageReferences` unchanged (whatever happens to the rest of the
batch). -/
theorem c9_nonstrict_unsupported_passthrough (docs : List YNode) (b : Builder)
    (pub : Publisher) (i : Nat) (d : YNode)
    (hd : docs[i]? = some d)
    (huns : ∀ pn ∈ refsFromDoc d false, b.IsSupportedReference (keyOf pn.2) = false) :
    (∀ r, ∀ s ∈ sitesFor docs false b r, s.1 ≠ i)
    ∧ (ImageReferences docs false b pub).docs[i]? = some d := by
  have hnotin : ∀ r, ∀ s ∈ sitesFor docs false b r, s.1 ≠ i := by
    intro r s hs hi
    obtain ⟨n, hw, hsupp, _⟩ := (mem_sitesFor docs false b r s).mp hs
    obtain ⟨j, d', h1, h2, h3⟩ := mem_walkAllFrom false docs 0 s n hw
    rw [Nat.zero_add] at h1
    rw [h1] at hi
    rw [hi] at h2
    rw [hd] at h2
    injection h2 with h2
    rw [← h2] at h3
    rw [huns (s.2, n) h3] at hsupp
    exact Bool.false_ne_true hsupp
  refine ⟨hnotin, ?_⟩
  have hm : collectDocs b false 0 docs []
      = .ok (((walkAll docs false).filterMap (keepPair b)).foldl step []) :=
    collectDocs_eq_false b docs 0 []
  set M := ((walkAll docs false).filterMap (keepPair b)).foldl step [] with hM
  cases hfe : firstErr ((keysOf M).map (fun r => (r, (runTask b pub r).2))) with
  | some e =>
    rw [ImageReferences_of_task_err docs false b pub M e hm hfe]
    exact hd
  | none =>
    rw [ImageReferences_of_ok docs false b pub M hm hfe]
    show (applyWrites docs _)[i]? = some d
    rw [get?_applyWrites _ docs i ?_]
    · exact hd
    · intro sw hsw
      obtain ⟨e, he, hse⟩ := mem_writesOf _ _ sw hsw
      have h2 : lookupSites M e.1 = e.2 :=
        lookupSites_of_mem_nodup M (nodup_keys_collect b false docs M hm) e he
      have h3 : sw.1 ∈ sitesFor docs false b e.1 := by
        rw [← lookupSites_collect b false docs M hm e.1, h2]
        exact hse
      exact hnotin e.1 sw.1 h3

/-- Claim C1: when discovery completes, a supported bare reference with
at least one occurrence in the batch is built exactly once and published
at most once, and on success every one of its occurrence sites holds the
same digest, the one produced by that single build-and-publish task. -/
theorem c1_dedup_single_build (docs : List YNode) (strict : Bool) (b : Builder)
    (pub : Publisher) (r : String) (m : RefMap)
    (hm : collectDocs b strict 0 docs [] = .ok m)
    (hocc : sitesFor docs strict b r ≠ []) :
    (ImageReferences docs strict b pub).trace.builds.count r = 1
    ∧ (ImageReferences docs strict b pub).trace.publishes.count r ≤ 1
    ∧ ((ImageReferences docs strict b pub).err = none →
        ∃ dg, (runTask b pub r).2 = .ok dg
          ∧ ∀ s ∈ sitesFor docs strict b r,
              siteValue (ImageReferences docs strict b pub).docs s = some dg) := by
  have hkey : r ∈ keysOf m := (mem_keys_collect b strict docs m hm r).mpr hocc
  have hnd : (keysOf m).Nodup := nodup_keys_collect b strict docs m hm
  have hcount : (keysOf m).count r = 1 := List.count_eq_one_of_mem hnd hkey
  have hpub : ((keysOf m).filter (buildOk b)).count r ≤ 1 := by
    calc ((keysOf m).filter (buildOk b)).count r
        ≤ (keysOf m).count r := (List.filter_sublist _).count_le r
      _ = 1 := hcount
  cases hfe : firstErr ((keysOf m).map (fun r => (r, (runTask b pub r).2))) with
  | some e =>
    rw [ImageReferences_of_task_err docs strict b pub m e hm hfe]
    exact ⟨hcount, hpub, fun h => absurd h (by simp)⟩
  | none =>
    rw [ImageReferences_of_ok docs strict b pub m hm hfe]
    refine ⟨hcount, hpub, fun _ => ?_⟩
    obtain ⟨dg, hdg⟩ := ((firstErr_map_none_iff _ _).mp hfe) r hkey
    refine ⟨dg, hdg, ?_⟩
    intro s hs
    show siteValue (applyWrites docs _) s = some dg
    rw [siteValue_applyWrites]
    have hlook : lookupStr
        (okPairs ((keysOf m).map (fun x => (x, (runTask b pub x).2)))) r = some dg :=
      lookupStr_okPairs_map _ (keysOf m) r dg hdg hkey
    have hkeyfun : ∀ e ∈ m, s ∈ e.2 → e.1 = r := by
      intro e he hse
      have h2 : lookupSites m e.1 = e.2 := lookupSites_of_mem_nodup m hnd e he
      have h3 : s ∈ sitesFor docs strict b e.1 := by
        rw [← lookupSites_collect b strict docs m hm e.1, h2]
        exact hse
      exact sitesFor_disjoint docs strict b e.1 r s h3 hs
    have hmemfun : ∃ e ∈ m, s ∈ e.2 := by
      have hlk : s ∈ lookupSites m r := by
        rw [lookupSites_collect b strict docs m hm r]
        exact hs
      obtain ⟨e, he, _, hse⟩ := mem_entry_of_mem_lookupSites m r s hlk
      exact ⟨e, he, hse⟩
    rw [lastVal_writesOf _ s r dg m hkeyfun hmemfun hlook]
    obtain ⟨n, hw, _, _⟩ := (mem_sitesFor docs strict b r s).mp hs
    rw [walk_siteValue docs strict s n hw]
    rfl

/-- A string scalar whose raw value has leading whitespace before the
`ko://` prefix. -/
def exDoc6 : YNode := .mk .scalar "!!str" " ko://x" []

/-- Claim C6, counterexample to the claim as stated: the strict walker
filters on the raw `node.Value` (go-yit `WithPrefix`), not on the
trimmed value.  The string scalar `" ko://x"` has a trimmed value
beginning with `ko://` yet the strict walker does not yield it, so the
walker's yield is not "exactly the string scalars whose trimmed value
begins with `ko://`". -/
theorem c6_counterexample :
    ¬ (∀ pn : Path × YNode, pn ∈ refsFromDoc exDoc6 true ↔
        (pn ∈ recurseNodes exDoc6 ∧ stringValue pn.2 = true
          ∧ hasPfx (trimSpace pn.2.value) koPfx = true)) := by
  intro h
  have hmem : ([], exDoc6) ∈ recurseNodes exDoc6 := by
    rw [show recurseNodes exDoc6 = [([], exDoc6)] from rfl]
    exact List.mem_singleton.mpr rfl
  have := (h ([], exDoc6)).mpr ⟨hmem, rfl, by decide⟩
  rw [show refsFromDoc exDoc6 true = [] from rfl] at this
  simp at this

/-- Claim C6, amended: the walker yields, in depth-first pre-order
(document order) and once per occurrence, exactly the string scalars,
additionally requiring in strict mode that the raw (untrimmed) value
begins with `ko://`. -/
theorem c6_amended_walker (d : YNode) (strict : Bool) :
    refsFromDoc d strict
      = (recurseNodes d).filter
          (fun pn => stringValue pn.2 && (!strict || hasPfx pn.2.value koPfx)) := by
  cases strict
  · rw [refsFromDoc_false]
    apply List.filter_congr
    intro pn _
    simp
  · rw [refsFromDoc_true, List.filter_filter]
    apply List.filter_congr
    intro pn _
    show (withPfx koPfx pn.2 && stringValue pn.2)
        = (stringValue pn.2 && (!true || hasPfx pn.2.value koPfx))
    rw [show (!true || hasPfx pn.2.value koPfx) = withPfx koPfx pn.2 from rfl]
    exact Bool.and_comm ..

/-! ### `resolveFile` (`pkg/commands/resolver.go`)

The file I/O and YAML decoding are external; the model takes the decoded
document sequence as input.  The label selector is embedded as an
abstract predicate: `resolve.MatchesSelector` is code of this repository
that is not under `src/` (modelled from the spec: it evaluates the
parsed label selector against the document's top-level
`metadata.labels`); every claim below holds for an arbitrary predicate.
The decode loop appends a document to `docNodes` only when the selector
matches (`continue` otherwise), and only `docNodes` is resolved and
re-encoded. -/

/-- Embedding of `resolveFile`: filter the decoded documents through the
selector, resolve the kept batch in place, and emit exactly the kept
documents (the encoder serialises `docNodes` in order). -/
def resolveFile (docs : List YNode) (sel : Option (YNode → Bool)) (strict : Bool)
    (b : Builder) (pub : Publisher) : CallTrace × Except String (List YNode) :=
  let docNodes :=
    match sel with
    | none => docs
    | some p => docs.filter p
  let res := ImageReferences docNodes strict b pub
  match res.err with
  | some e => (res.trace, .error ("error resolving image references: " ++ e))
  | none => (res.trace, .ok res.docs)

theorem modAt_length (f : YNode → YNode) :
    ∀ (cs : List YNode) (i : Nat), (modAt f i cs).length = cs.length := by
  intro cs
  induction cs with
  | nil => intro i; cases i <;> rfl
  | cons c cs ih =>
    intro i
    match i with
    | 0 => rfl
    | i + 1 => simp [modAt, ih i]

theorem applyWrites_length :
    ∀ (ws : List (Site × String)) (docs : List YNode),
      (applyWrites docs ws).length = docs.length := by
  intro ws
  induction ws with
  | nil => intro docs; rfl
  | cons sw ws ih =>
    intro docs
    rw [show applyWrites docs (sw :: ws) = applyWrites (setSite docs sw.1 sw.2) ws from rfl,
      ih]
    exact modAt_length _ docs sw.1.1

theorem ImageReferences_docs_length (docs : List YNode) (strict : Bool)
    (b : Builder) (pub : Publisher) :
    (ImageReferences docs strict b pub).docs.length = docs.length := by
  cases hc : collectDocs b strict 0 docs [] with
  | error e => rw [ImageReferences_of_collect_err docs strict b pub e hc]
  | ok m =>
    cases hfe : firstErr ((keysOf m).map (fun r => (r, (runTask b pub r).2))) with
    | some e => rw [ImageReferences_of_task_err docs strict b pub m e hc hfe]
    | none =>
      rw [ImageReferences_of_ok docs strict b pub m hc hfe]
      exact applyWrites_length _ docs

/-! ### The stream orchestrator (`resolveFilesToWriter`)

The select loop of `resolveFilesToWriter` is embedded as a transition
system.  A slot of the `futures` FIFO is identified by the arrival index
of its filename; `arrived` counts filenames received from `fs`,
`headIdx` counts slots dequeued.  The per-file resolution outcome is
abstracted by `res : String → Option String` (`some` = the bytes
`resolveFile` delivered to the slot, `none` = the goroutine returned on
error, closing the slot without a value).  The scheduler (event list) is
arbitrary: `arrive` receives the next filename and spawns its goroutine,
`complete i` is slot `i`'s goroutine finishing, and `consume` is the
head-slot case of the select, the only case that writes to `out`.  In
one-shot mode (`watch = false`) an error calls `log.Fatalf`, which exits
the process: the state is marked `dead` and nothing further happens.  In
watch mode the error is only logged and the slot closes empty. -/

/-- The separator the orchestrator writes after each body:
`out.Write(append(b, []byte("\n---\n")...))`. -/
def sepMark : String := "\n---\n"

/-- Filename of slot `i` (total: out-of-range indices never arise in a
reachable state). -/
def fileAt (files : List String) (i : Nat) : String := files.getD i ""

/-- One scheduler event of the orchestrator loop. -/
inductive OEvent where
  | arrive
  | complete (i : Nat)
  | consume
  deriving DecidableEq, Repr

/-- Static configuration: arrival sequence of filenames, watch flag, and
the per-file resolution outcome. -/
structure OConfig where
  files : List String
  watch : Bool
  res : String → Option String

/-- Orchestrator state: filenames received, slots dequeued, completed
slots, chunks written to the sink, and whether `log.Fatalf` has fired. -/
structure OState where
  arrived : Nat
  headIdx : Nat
  completedL : List Nat
  writes : List String
  dead : Bool
  deriving DecidableEq, Repr

/-- Initial orchestrator state. -/
def initState : OState := ⟨0, 0, [], [], false⟩

/-- One transition of the orchestrator: events with unmet preconditions
are no-ops. -/
def applyEvent (cfg : OConfig) (s : OState) (e : OEvent) : OState :=
  if s.dead then s
  else
    match e with
    | .arrive =>
      if s.arrived < cfg.files.length then { s with arrived := s.arrived + 1 } else s
    | .complete i =>
      if i < s.arrived ∧ i ∉ s.completedL then
        match cfg.res (fileAt cfg.files i) with
        | some _ => { s with completedL := i :: s.completedL }
        | none =>
          if cfg.watch then { s with completedL := i :: s.completedL }
          else { s with dead := true }
      else s
    | .consume =>
      if s.headIdx < s.arrived ∧ s.headIdx ∈ s.completedL then
        match cfg.res (fileAt cfg.files s.headIdx) with
        | some bts =>
          { s with writes := s.writes ++ [bts ++ sepMark], headIdx := s.headIdx + 1 }
        | none => { s with headIdx := s.headIdx + 1 }
      else s

/-- Run the orchestrator under an arbitrary schedule. -/
def runEvents (cfg : OConfig) (evs : List OEvent) : OState :=
  evs.foldl (applyEvent cfg) initState

/-- Invariant of every reachable orchestrator state. -/
structure OInv (cfg : OConfig) (s : OState) : Prop where
  head_le : s.headIdx ≤ s.arrived
  arr_le : s.arrived ≤ cfg.files.length
  comp_lt : ∀ i ∈ s.completedL, i < s.arrived
  comp_ok : cfg.watch = false → ∀ i ∈ s.completedL, cfg.res (fileAt cfg.files i) ≠ none
  head_comp : ∀ j, j < s.headIdx → j ∈ s.completedL
  writes_eq : s.writes = (cfg.files.take s.headIdx).filterMap
      (fun f => (cfg.res f).map (fun bts => bts ++ sepMark))
  watch_alive : cfg.watch = true → s.dead = false

theorem OInv_init (cfg : OConfig) : OInv cfg initState := by
  refine ⟨Nat.le_refl 0, Nat.zero_le _, ?_, ?_, ?_, rfl, fun _ => rfl⟩
  · intro i hi; simp [initState] at hi
  · intro _ i hi; simp [initState] at hi
  · intro j hj; simp [initState] at hj

theorem OInv_step (cfg : OConfig) (s : OState) (e : OEvent) (h : OInv cfg s) :
    OInv cfg (applyEvent cfg s e) := by
  by_cases hdead : s.dead
  · rw [show applyEvent cfg s e = s by simp [applyEvent, hdead]]
    exact h
  cases e with
  | arrive =>
    by_cases harr : s.arrived < cfg.files.length
    · rw [show applyEvent cfg s .arrive = { s with arrived := s.arrived + 1 } by
        simp [applyEvent, hdead, harr]]
      exact ⟨Nat.le_succ_of_le h.head_le, harr, fun i hi => Nat.lt_succ_of_lt (h.comp_lt i hi),
        h.comp_ok, h.head_comp, h.writes_eq, h.watch_alive⟩
    · rw [show applyEvent cfg s .arrive = s by simp [applyEvent, hdead, harr]]
      exact h
  | complete i =>
    by_cases hpre : i < s.arrived ∧ i ∉ s.completedL
    · cases hres : cfg.res (fileAt cfg.files i) with
      | some bts =>
        rw [show applyEvent cfg s (.complete i) = { s with completedL := i :: s.completedL } by
          simp [applyEvent, hdead, hpre, hres]]
        refine ⟨h.head_le, h.arr_le, ?_, ?_, ?_, h.writes_eq, h.watch_alive⟩
        · intro i' hi'
          rcases List.mem_cons.mp hi' with h1 | h1
          · rw [h1]; exact hpre.1
          · exact h.comp_lt i' h1
        · intro hw i' hi'
          rcases List.mem_cons.mp hi' with h1 | h1
          · rw [h1, hres]; simp
          · exact h.comp_ok hw i' h1
        · intro j hj
          exact List.mem_cons_of_mem _ (h.head_comp j hj)
      | none =>
        cases hw : cfg.watch with
        | true =>
          rw [show applyEvent cfg s (.complete i) = { s with completedL := i :: s.completedL } by
            simp [applyEvent, hdead, hpre, hres, hw]]
          refine ⟨h.head_le, h.arr_le, ?_, ?_, ?_, h.writes_eq, h.watch_alive⟩
          · intro i' hi'
            rcases List.mem_cons.mp hi' with h1 | h1
            · rw [h1]; exact hpre.1
            · exact h.comp_lt i' h1
          · intro hwf; rw [hwf] at hw; cases hw
          · intro j hj
            exact List.mem_cons_of_mem _ (h.head_comp j hj)
        | false =>
          rw [show applyEvent cfg s (.complete i) = { s with dead := true } by
            simp [applyEvent, hdead, hpre, hres, hw]]
          refine ⟨h.head_le, h.arr_le, h.comp_lt, h.comp_ok, h.head_comp, h.writes_eq, ?_⟩
          intro hwt; rw [hwt] at hw; cases hw
    · rw [show applyEvent cfg s (.complete i) = s by simp [applyEvent, hdead, hpre]]
      exact h
  | consume =>
    by_cases hpre : s.headIdx < s.arrived ∧ s.headIdx ∈ s.completedL
    · have hlt : s.headIdx < cfg.files.length := Nat.lt_of_lt_of_le hpre.1 h.arr_le
      have hget : cfg.files[s.headIdx]? = some (fileAt cfg.files s.headIdx) := by
        rw [List.getElem?_eq_getElem hlt]
        unfold fileAt
        rw [List.getD_eq_getElem _ _ hlt]
      have htake : cfg.files.take (s.headIdx + 1)
          = cfg.files.take s.headIdx ++ [fileAt cfg.files s.headIdx] := by
        rw [List.take_succ, hget]
        rfl
      cases hres : cfg.res (fileAt cfg.files s.headIdx) with
      | some bts =>
        rw [show applyEvent cfg s .consume
            = { s with writes := s.writes ++ [bts ++ sepMark], headIdx := s.headIdx + 1 } by
          simp [applyEvent, hdead, hpre, hres]]
        refine ⟨hpre.1, h.arr_le, h.comp_lt, h.comp_ok, ?_, ?_, h.watch_alive⟩
        · intro j hj
          rcases Nat.lt_succ_iff_lt_or_eq.mp hj with h1 | h1
          · exact h.head_comp j h1
          · rw [h1]; exact hpre.2
        · show s.writes ++ [bts ++ sepMark] = _
          rw [h.writes_eq, htake, List.filterMap_append]
          simp [hres]
      | none =>
        rw [show applyEvent cfg s .consume = { s with headIdx := s.headIdx + 1 } by
          simp [applyEvent, hdead, hpre, hres]]
        refine ⟨hpre.1, h.arr_le, h.comp_lt, h.comp_ok, ?_, ?_, h.watch_alive⟩
        · intro j hj
          rcases Nat.lt_succ_iff_lt_or_eq.mp hj with h1 | h1
          · exact h.head_comp j h1
          · rw [h1]; exact hpre.2
        · show s.writes = _
          rw [h.writes_eq, htake, List.filterMap_append]
          simp [hres]
    · rw [show applyEvent cfg s .consume = s by simp [applyEvent, hdead, hpre]]
      exact h

theorem OInv_run (cfg : OConfig) (evs : List OEvent) : OInv cfg (runEvents cfg evs) := by
  suffices hgen : ∀ (l : List OEvent) (s : OState), OInv cfg s → OInv cfg (l.foldl (applyEvent cfg) s) by
    exact hgen evs initState (OInv_init cfg)
  intro l
  induction l with
  | nil => intro s h; exact h
  | cons e l ih =>
    intro s h
    exact ih _ (OInv_step cfg s e h)

theorem filterMap_chunks_eq_map (res : String → Option String) :
    ∀ files : List String, (∀ f ∈ files, (res f).isSome) →
      files.filterMap (fun f => (res f).map (fun bts => bts ++ sepMark))
        = files.map (fun f => ((res f).getD "") ++ sepMark) := by
  intro files
  induction files with
  | nil => intro _; rfl
  | cons f files ih =>
    intro h
    cases hf : res f with
    | none =>
      have := h f (List.mem_cons_self _ _)
      rw [hf] at this
      simp at this
    | some bts =>
      rw [List.filterMap_cons, List.map_cons, hf]
      simp only [Option.map_some', Option.getD_some]
      rw [ih (fun g hg => h g (List.mem_cons_of_mem _ hg))]

/-- Claim C3: under any scheduling of arrivals, completions and head
consumptions, once the orchestrator has drained every slot the sink has
received exactly the resolved bytes of the files, each followed by
`"\n---\n"`, in filename arrival order, regardless of the order of the
`complete` events. -/
theorem c3_output_in_arrival_order (files : List String) (watch : Bool)
    (res : String → Option String) (evs : List OEvent)
    (hall : ∀ f ∈ files, (res f).isSome)
    (hdone : (runEvents ⟨files, watch, res⟩ evs).headIdx = files.length) :
    (runEvents ⟨files, watch, res⟩ evs).writes
      = files.map (fun f => ((res f).getD "") ++ sepMark) := by
  have hinv := OInv_run ⟨files, watch, res⟩ evs
  rw [hinv.writes_eq, hdone]
  show (files.take files.length).filterMap _ = _
  rw [List.take_length]
  exact filterMap_chunks_eq_map res files hall

/-- Claim C10: in watch mode, a file whose resolution fails contributes
nothing to the sink — neither bytes nor a separator, since its slot was
closed without a value — while every other file's chunk is still
emitted, in arrival order. -/
theorem c10_failed_file_omitted (files : List String)
    (res : String → Option String) (k : Nat) (evs : List OEvent)
    (hk : k < files.length) (hfail : res (fileAt files k) = none)
    (hdone : (runEvents ⟨files, true, res⟩ evs).headIdx = files.length) :
    (runEvents ⟨files, true, res⟩ evs).writes
      = files.filterMap (fun f => (res f).map (fun bts => bts ++ sepMark))
    ∧ (runEvents ⟨files, true, res⟩ evs).writes
      = (files.take k).filterMap (fun f => (res f).map (fun bts => bts ++ sepMark))
        ++ (files.drop (k + 1)).filterMap (fun f => (res f).map (fun bts => bts ++ sepMark)) := by
  have hinv := OInv_run ⟨files, true, res⟩ evs
  have hfull : (runEvents ⟨files, true, res⟩ evs).writes
      = files.filterMap (fun f => (res f).map (fun bts => bts ++ sepMark)) := by
    rw [hinv.writes_eq, hdone]
    show (files.take files.length).filterMap _ = _
    rw [List.take_length]
  refine ⟨hfull, ?_⟩
  rw [hfull]
  have hsplit : files = files.take k ++ fileAt files k :: files.drop (k + 1) := by
    have h1 : files.drop k = fileAt files k :: files.drop (k + 1) := by
      rw [List.drop_eq_getElem_cons hk]
      unfold fileAt
      rw [List.getD_eq_getElem _ _ hk]
    rw [← h1, List.take_append_drop]
  rw [show files.filterMap (fun f => (res f).map (fun bts => bts ++ sepMark))
        = (files.take k ++ fileAt files k :: files.drop (k + 1)).filterMap
            (fun f => (res f).map (fun bts => bts ++ sepMark)) from by rw [← hsplit]]
  rw [List.filterMap_append, List.filterMap_cons, hfail]
  simp

theorem foldl_arrive (cfg : OConfig) :
    ∀ (n : Nat) (s : OState), s.dead = false → s.arrived + n ≤ cfg.files.length →
      List.foldl (applyEvent cfg) s (List.replicate n .arrive)
        = { s with arrived := s.arrived + n } := by
  intro n
  induction n with
  | zero => intro s _ _; simp
  | succ n ih =>
    intro s hdead hle
    rw [List.replicate_succ, List.foldl_cons,
      show applyEvent cfg s .arrive = { s with arrived := s.arrived + 1 } from by
        simp [applyEvent, hdead]
        omega,
      ih { s with arrived := s.arrived + 1 } hdead (by simp; omega)]
    simp
    omega

/-- Claim C8: error policy of `resolveFilesToWriter`.  In one-shot mode
a failing file is fatal: `log.Fatalf` fires when its resolution
completes (the schedule that arrives at it and completes it reaches the
dead state), and the pipeline can never drain past the failing slot, so
it never finishes normally.  In watch mode the error is only logged:
the process never dies, and a fully drained run has emitted every other
file's bytes in arrival order. -/
theorem c8_error_policy (files : List String) (res : String → Option String)
    (k : Nat) (hk : k < files.length) (hfail : res (fileAt files k) = none) :
    (∀ evs, (runEvents ⟨files, false, res⟩ evs).headIdx ≤ k)
    ∧ (runEvents ⟨files, false, res⟩
        (List.replicate (k + 1) .arrive ++ [.complete k])).dead = true
    ∧ (∀ evs, (runEvents ⟨files, true, res⟩ evs).dead = false
        ∧ ((runEvents ⟨files, true, res⟩ evs).headIdx = files.length →
            (runEvents ⟨files, true, res⟩ evs).writes
              = files.filterMap (fun f => (res f).map (fun bts => bts ++ sepMark)))) := by
  refine ⟨?_, ?_, ?_⟩
  · intro evs
    have hinv := OInv_run ⟨files, false, res⟩ evs
    by_contra hgt
    have hklt : k < (runEvents ⟨files, false, res⟩ evs).headIdx := by omega
    have hmem := hinv.head_comp k hklt
    exact hinv.comp_ok rfl k hmem hfail
  · rw [runEvents, List.foldl_append,
      foldl_arrive ⟨files, false, res⟩ (k + 1) initState rfl
        (by simp [initState]; omega)]
    rw [List.foldl_cons, List.foldl_nil]
    rw [show applyEvent ⟨files, false, res⟩
          { initState with arrived := initState.arrived + (k + 1) } (.complete k)
        = { initState with arrived := initState.arrived + (k + 1), dead := true } from by
      simp [applyEvent, initState, hfail]]
  · intro evs
    have hinv := OInv_run ⟨files, true, res⟩ evs
    refine ⟨hinv.watch_alive rfl, ?_⟩
    intro hdone
    rw [hinv.writes_eq, hdone]
    show (files.take files.length).filterMap _ = _
    rw [List.take_length]

/-! ### Claim theorems for `resolveFile` -/

/-- Claim C2, amended: a document whose top-level labels do not match
the selector is excluded from reference discovery AND dropped from the
output entirely — `resolveFile` behaves exactly as if it had been handed
the pre-filtered batch, and emits one output document per matching
input document. -/
theorem c2_amended_selector_drops (docs : List YNode) (p : YNode → Bool)
    (strict : Bool) (b : Builder) (pub : Publisher) :
    resolveFile docs (some p) strict b pub
      = resolveFile (docs.filter p) none strict b pub
    ∧ ∀ out, (resolveFile docs (some p) strict b pub).2 = .ok out →
        out.length = (docs.filter p).length := by
  refine ⟨rfl, ?_⟩
  intro out hout
  cases herr : (ImageReferences (docs.filter p) strict b pub).err with
  | some e =>
    have hres : (resolveFile docs (some p) strict b pub).2
        = .error ("error resolving image references: " ++ e) := by
      unfold resolveFile
      simp only [herr]
    rw [hres] at hout
    exact absurd hout (by simp)
  | none =>
    have hres : (resolveFile docs (some p) strict b pub).2
        = .ok (ImageReferences (docs.filter p) strict b pub).docs := by
      unfold resolveFile
      simp only [herr]
    rw [hres] at hout
    injection hout with hout
    rw [← hout, ImageReferences_docs_length]

/-! ### The watch-mode dep-notify callback (`resolveFilesToWriter`)

`graph.New` installs a callback that, on a set of affected import
paths, ranges over the file→importpaths map and, for each recorded
importpath of each file that is in the affected set, calls
`builder.Invalidate(ip)` and then immediately re-sends that file's name
on `fs` — inside the inner loop, once per intersecting import path.
The callback's externally visible behaviour is its sequence of
`Invalidate` calls and channel sends. -/

/-- One observable action of the dep-notify callback. -/
inductive WEvent where
  | invalidate (ip : String)
  | send (file : String)
  deriving DecidableEq, Repr

/-- Embedding of the callback body: `sm.Range` over the map (one
iteration order of the `sync.Map`), and for each `ip` of each file,
`if ss.Has(ip) { builder.Invalidate(ip); fs <- key }`. -/
def callbackEvents (smap : List (String × List String))
    (affected : List String) : List WEvent :=
  smap.flatMap (fun e =>
    e.2.flatMap (fun ip =>
      if affected.contains ip then [.invalidate ip, .send e.1] else []))

/-- Formalisation of claim C7 as stated: for every file and every one of
its recorded references in the affected set, the (first) `Invalidate` of
that reference occurs before the (first) re-send of the file. -/
def allInvBeforeSend (smap : List (String × List String))
    (affected : List String) : Prop :=
  ∀ e ∈ smap, ∀ ip ∈ e.2, affected.contains ip = true →
    (callbackEvents smap affected).findIdx (fun ev => ev == WEvent.invalidate ip)
      < (callbackEvents smap affected).findIdx (fun ev => ev == WEvent.send e.1)

/-- An event list made of consecutive `[invalidate ip, send f]` pairs
whose components satisfy `P`. -/
inductive PairSeq (P : String → String → Prop) : List WEvent → Prop where
  | nil : PairSeq P []
  | pair (ip f : String) (rest : List WEvent) :
      P ip f → PairSeq P rest →
      PairSeq P (.invalidate ip :: .send f :: rest)

theorem pairSeq_append (P : String → String → Prop) {a b : List WEvent}
    (ha : PairSeq P a) (hb : PairSeq P b) : PairSeq P (a ++ b) := by
  induction ha with
  | nil => exact hb
  | pair ip f rest hP _ ih => exact .pair ip f _ hP ih

/-- The property carried by each `[invalidate, send]` pair the callback
emits: the reference is affected and recorded for that file. -/
def atomP (smap : List (String × List String)) (affected : List String)
    (ip f : String) : Prop :=
  affected.contains ip = true ∧ ∃ ips, (f, ips) ∈ smap ∧ ip ∈ ips

theorem pairSeq_entry (smap : List (String × List String))
    (affected : List String) (f : String) (ips : List String)
    (hmem : (f, ips) ∈ smap) :
    ∀ sub : List String, (∀ ip ∈ sub, ip ∈ ips) →
      PairSeq (atomP smap affected)
        (sub.flatMap (fun ip =>
          if affected.contains ip then [.invalidate ip, .send f] else [])) := by
  intro sub
  induction sub with
  | nil => intro _; exact .nil
  | cons ip sub ih =>
    intro h
    rw [List.flatMap_cons]
    by_cases hc : affected.contains ip
    · rw [if_pos hc]
      exact .pair ip f _ ⟨hc, ips, hmem, h ip (List.mem_cons_self _ _)⟩
        (ih (fun x hx => h x (List.mem_cons_of_mem _ hx)))
    · rw [if_neg hc, List.nil_append]
      exact ih (fun x hx => h x (List.mem_cons_of_mem _ hx))

theorem pairSeq_callback (smap : List (String × List String))
    (affected : List String) :
    PairSeq (atomP smap affected) (callbackEvents smap affected) := by
  suffices hgen : ∀ sub : List (String × List String), (∀ e ∈ sub, e ∈ smap) →
      PairSeq (atomP smap affected)
        (sub.flatMap (fun e =>
          e.2.flatMap (fun ip =>
            if affected.contains ip then [.invalidate ip, .send e.1] else []))) by
    exact hgen smap (fun _ h => h)
  intro sub
  induction sub with
  | nil => intro _; exact .nil
  | cons e sub ih =>
    intro h
    rw [List.flatMap_cons]
    exact pairSeq_append _
      (pairSeq_entry smap affected e.1 e.2
        (by simpa using h e (List.mem_cons_self _ _)) e.2 (fun _ hx => hx))
      (ih (fun x hx => h x (List.mem_cons_of_mem _ hx)))

theorem pairSeq_send_preceded (P : String → String → Prop) :
    ∀ (evs : List WEvent), PairSeq P evs →
      ∀ (j : Nat) (f : String), evs[j]? = some (.send f) →
        1 ≤ j ∧ ∃ ip, evs[j - 1]? = some (.invalidate ip) ∧ P ip f := by
  intro evs hps
  induction hps with
  | nil => intro j f hj; simp at hj
  | pair ip f' rest hP hrest ih =>
    intro j f hj
    match j with
    | 0 => simp at hj
    | 1 =>
      have hf : f' = f := by
        have : some (WEvent.send f') = some (WEvent.send f) := by simpa using hj
        injection this with this
        injection this
      exact ⟨Nat.le_refl 1, ip, by simp, hf ▸ hP⟩
    | j + 2 =>
      have hj' : rest[j]? = some (.send f) := by simpa using hj
      obtain ⟨h1, ip', hprev, hP'⟩ := ih j f hj'
      obtain ⟨j', rfl⟩ : ∃ j', j = j' + 1 := ⟨j - 1, by omega⟩
      refine ⟨by omega, ip', ?_, hP'⟩
      show (WEvent.invalidate ip :: WEvent.send f' :: rest)[j' + 2]?
          = some (.invalidate ip')
      simpa using hprev

/-- Claim C7, counterexample to the claim as stated: the callback calls
`Invalidate` and re-sends *inside the per-reference loop*, so for a file
with two affected references the first re-send happens before the second
reference's `Invalidate`.  With `a.yaml` recording `[r1, r2]` and
affected set `{r1, r2}` the emitted sequence is `[Invalidate r1,
send a.yaml, Invalidate r2, send a.yaml]`, where a send of `a.yaml`
precedes `Invalidate r2`. -/
theorem c7_counterexample :
    callbackEvents [("a.yaml", ["r1", "r2"])] ["r1", "r2"]
      = [.invalidate "r1", .send "a.yaml", .invalidate "r2", .send "a.yaml"]
    ∧ ¬ allInvBeforeSend [("a.yaml", ["r1", "r2"])] ["r1", "r2"] := by
  constructor
  · rfl
  · intro h
    have := h ("a.yaml", ["r1", "r2"]) (by simp) "r2" (by simp) (by decide)
    revert this
    decide

/-- Claim C7, amended: every re-send of a file is immediately preceded
by the `Invalidate` of one of that file's recorded references in the
affected set — each `Invalidate` happens before the re-send it triggers,
and the file is re-sent once per intersecting reference (but an earlier
re-send of a file may precede the `Invalidate` of a later intersecting
reference). -/
theorem c7_amended_invalidate_precedes_send
    (smap : List (String × List String)) (affected : List String)
    (j : Nat) (f : String)
    (hs : (callbackEvents smap affected)[j]? = some (.send f)) :
    1 ≤ j ∧ ∃ ip, (callbackEvents smap affected)[j - 1]? = some (.invalidate ip)
      ∧ affected.contains ip = true
      ∧ ∃ ips, (f, ips) ∈ smap ∧ ip ∈ ips := by
  obtain ⟨h1, ip, hprev, hP⟩ :=
    pairSeq_send_preceded (atomP smap affected) (callbackEvents smap affected)
      (pairSeq_callback smap affected) j f hs
  exact ⟨h1, ip, hprev, hP.1, hP.2⟩

/-! ### Concrete batch used by the witnesses -/

/-- A string scalar node. -/
def exStr (v : String) : YNode := .mk .scalar "!!str" v []

/-- A document whose `image` field is a strict reference to a supported
importpath. -/
def exDocA : YNode :=
  .mk .document "" "" [.mk .mapping "!!map" "" [exStr "image", exStr "ko://example.com/a"]]

/-- A document whose `image` field is the same bare reference without
the prefix. -/
def exDocB : YNode :=
  .mk .document "" "" [.mk .mapping "!!map" "" [exStr "image", exStr "example.com/a"]]

/-- A document carrying a strict reference the builder cannot build. -/
def exDocBad : YNode :=
  .mk .document "" "" [.mk .mapping "!!map" "" [exStr "image", exStr "ko://unknown/x"]]

/-- A document whose only string is not a supported reference. -/
def exDocNA : YNode := .mk .document "" "" [exStr "not-a-ref"]

/-- A builder supporting exactly `example.com/a`. -/
def exB : Builder :=
  ⟨fun s => decide (s = "example.com/a"), fun s => .ok ("img-" ++ s)⟩

/-- A builder whose `Build` always fails. -/
def exBFail : Builder :=
  ⟨fun s => decide (s = "example.com/a"), fun _ => .error "build exploded"⟩

/-- A publisher returning a digest-shaped string. -/
def exP : Publisher := ⟨fun _ r => .ok (r ++ "@sha256:cafe")⟩

/-- Claim C2, counterexample to the claim as stated: a document whose
labels do not match the selector is dropped from the output of
`resolveFile` entirely, not re-serialized unchanged — the output of a
batch consisting only of that document is empty. -/
theorem c2_counterexample :
    ¬ (∀ out, (resolveFile [exDocA] (some (fun _ => false)) false exB exP).2 = .ok out
        → exDocA ∈ out) := by
  intro h
  have := h [] rfl
  simp at this

/-! ### Witnesses -/

theorem c1_witness :
    (ImageReferences [exDocA, exDocB] false exB exP).trace.builds.count "example.com/a" = 1
    ∧ (ImageReferences [exDocA, exDocB] false exB exP).trace.publishes.count "example.com/a" ≤ 1
    ∧ ((ImageReferences [exDocA, exDocB] false exB exP).err = none →
        ∃ dg, (runTask exB exP "example.com/a").2 = .ok dg
          ∧ ∀ s ∈ sitesFor [exDocA, exDocB] false exB "example.com/a",
              siteValue (ImageReferences [exDocA, exDocB] false exB exP).docs s = some dg) :=
  c1_dedup_single_build [exDocA, exDocB] false exB exP "example.com/a"
    [("example.com/a", [(0, [0, 1]), (1, [0, 1])])] rfl (by decide)

theorem c2_witness :
    resolveFile [exDocA] (some (fun _ => false)) false exB exP
      = resolveFile ([exDocA].filter (fun _ => false)) none false exB exP
    ∧ ([] : List YNode).length = ([exDocA].filter (fun _ => false)).length :=
  ⟨(c2_amended_selector_drops [exDocA] (fun _ => false) false exB exP).1,
   (c2_amended_selector_drops [exDocA] (fun _ => false) false exB exP).2 [] rfl⟩

/-- Per-file resolution outcome used by the orchestrator witnesses:
every file resolves to its own bytes. -/
def exRes : String → Option String :=
  fun f => if f = "b.yaml" then some "bytesB" else some "bytesA"

/-- Per-file resolution outcome where `b.yaml` fails. -/
def exResFail : String → Option String :=
  fun f => if f = "b.yaml" then none else some (f ++ "-bytes")

theorem c3_witness :
    (runEvents ⟨["a.yaml", "b.yaml"], false, exRes⟩
        [.arrive, .arrive, .complete 1, .complete 0, .consume, .consume]).writes
      = ["a.yaml", "b.yaml"].map (fun f => ((exRes f).getD "") ++ sepMark) :=
  c3_output_in_arrival_order ["a.yaml", "b.yaml"] false exRes
    [.arrive, .arrive, .complete 1, .complete 0, .consume, .consume]
    (by decide) (by decide)

theorem c4_witness :
    ∃ msg,
      ImageReferences [exDocBad] true exB exP = ⟨⟨[], []⟩, [exDocBad], some msg⟩
      ∧ msg = strictErr (trimSpace (exStr "ko://unknown/x").value)
      ∧ hasPfx (trimSpace (exStr "ko://unknown/x").value) koPfx = true
      ∧ ∃ pre suf, msg = pre ++ trimSpace (exStr "ko://unknown/x").value ++ suf :=
  c4_strict_invalid_import_path [exDocBad] exB exP
    ((0, [0, 1]), exStr "ko://unknown/x") rfl

theorem c5_witness :
    (ImageReferences [exDocA] false exBFail exP).err = some "build exploded"
    ∧ (ImageReferences [exDocA] false exBFail exP).docs = [exDocA] :=
  c5_first_error_discards_progress [exDocA] false exBFail exP
    [("example.com/a", [(0, [0, 1])])] "build exploded" rfl rfl

theorem c7_witness :
    1 ≤ 1 ∧ ∃ ip,
      (callbackEvents [("a.yaml", ["r1", "r2"])] ["r1", "r2"])[1 - 1]?
          = some (.invalidate ip)
        ∧ ["r1", "r2"].contains ip = true
        ∧ ∃ ips, ("a.yaml", ips) ∈ [("a.yaml", ["r1", "r2"])] ∧ ip ∈ ips :=
  c7_amended_invalidate_precedes_send [("a.yaml", ["r1", "r2"])] ["r1", "r2"]
    1 "a.yaml" rfl

theorem c8_witness :
    (∀ evs, (runEvents ⟨["a.yaml", "b.yaml", "c.yaml"], false, exResFail⟩ evs).headIdx ≤ 1)
    ∧ (runEvents ⟨["a.yaml", "b.yaml", "c.yaml"], false, exResFail⟩
        (List.replicate 2 .arrive ++ [.complete 1])).dead = true
    ∧ (∀ evs, (runEvents ⟨["a.yaml", "b.yaml", "c.yaml"], true, exResFail⟩ evs).dead = false
        ∧ ((runEvents ⟨["a.yaml", "b.yaml", "c.yaml"], true, exResFail⟩ evs).headIdx = 3 →
            (runEvents ⟨["a.yaml", "b.yaml", "c.yaml"], true, exResFail⟩ evs).writes
              = ["a.yaml", "b.yaml", "c.yaml"].filterMap
                  (fun f => (exResFail f).map (fun bts => bts ++ sepMark)))) :=
  c8_error_policy ["a.yaml", "b.yaml", "c.yaml"] exResFail 1 (by decide) (by decide)

theorem c9_witness :
    (∀ r, ∀ s ∈ sitesFor [exDocNA] false exB r, s.1 ≠ 0)
    ∧ (ImageReferences [exDocNA] false exB exP).docs[0]? = some exDocNA :=
  c9_nonstrict_unsupported_passthrough [exDocNA] exB exP 0 exDocNA rfl (by decide)

theorem c10_witness :
    (runEvents ⟨["a.yaml", "b.yaml", "c.yaml"], true, exResFail⟩
        [.arrive, .arrive, .arrive, .complete 2, .complete 1, .complete 0,
          .consume, .consume, .consume]).writes
      = ["a.yaml", "b.yaml", "c.yaml"].filterMap
          (fun f => (exResFail f).map (fun bts => bts ++ sepMark))
    ∧ (runEvents ⟨["a.yaml", "b.yaml", "c.yaml"], true, exResFail⟩
        [.arrive, .arrive, .arrive, .complete 2, .complete 1, .complete 0,
          .consume, .consume, .consume]).writes
      = (["a.yaml", "b.yaml", "c.yaml"].take 1).filterMap
          (fun f => (exResFail f).map (fun bts => bts ++ sepMark))
        ++ (["a.yaml", "b.yaml", "c.yaml"].drop 2).filterMap
          (fun f => (exResFail f).map (fun bts => bts ++ sepMark)) :=
  c10_failed_file_omitted ["a.yaml", "b.yaml", "c.yaml"] exResFail 1
    [.arrive, .arrive, .arrive, .complete 2, .complete 1, .complete 0,
      .consume, .consume, .consume]
    (by decide) (by decide) (by decide)

end Ko
